import Mathlib

/-!
# Grid renaming of canvas images

A shallow embedding of `AutoRenamePlugin` from `src/auto-rename-canvas-images/main.js`:
`renameImagesInActiveCanvas` (lines 55-163) and `retryRename` (lines 165-187).

Conventions of the embedding.

* JavaScript strings are lists of characters (`Str`).
* JavaScript numbers are binary64 values (`Number`): a finite value kept as the exact
  rational it stands for, an infinity, or NaN.  Every arithmetic result is rounded to
  the nearest binary64 value, ties to even (`round64`).  The two zeros are one value:
  nothing in the plugin tells them apart.
* The vault (file tree) is a parameter: `Vault σ` gives `getAbstractFileByPath` and
  `rename` over an arbitrary state `σ`.  A `rename` that throws is `none`.
* Text documents are kept by path; a stored text is represented by what `JSON.parse`
  makes of it (`Stored`).
* `setTimeout` callbacks are returned as a list of `FollowUp`s instead of being run.
* A thrown exception is `Except.error`; the `try ... catch` around the body of
  `renameImagesInActiveCanvas` is the `match` in that function.
-/

namespace AutoRename

/-- JavaScript strings. -/
abbrev Str := List Char

/-! ## Numbers

Binary64 arithmetic, as far as lines 83, 84, 97, 98, 101 and 102 use it: `+`, `-`,
`/ 2`, `Math.abs`, `<` and the truthiness of a number. -/

/-- A JavaScript number: a finite binary64 value, kept as the rational it stands for,
`Infinity` or `-Infinity`, or `NaN`. -/
inductive Number where
  | fin (q : ℚ)
  | inf (negative : Bool)
  | nan
  deriving DecidableEq

/-- The power of two `2 ^ k` for an integer `k`. -/
def pow2 (k : ℤ) : ℚ :=
  if 0 ≤ k then ((2 ^ k.toNat : ℕ) : ℚ) else 1 / ((2 ^ (-k).toNat : ℕ) : ℚ)

/-- The number of halvings that bring `n` below 2, with `fuel` steps at most. -/
def log2Aux : Nat → Nat → Nat
  | 0, _ => 0
  | fuel + 1, n => if n < 2 then 0 else log2Aux fuel (n / 2) + 1

/-- The binary exponent of a positive rational `a`: the `e` with `2 ^ e ≤ a < 2 ^ (e + 1)`. -/
def floorLog2 (a : ℚ) : ℤ :=
  if pow2 ((log2Aux a.num.natAbs a.num.natAbs : ℤ) - (log2Aux a.den a.den : ℤ)) ≤ a then
    (log2Aux a.num.natAbs a.num.natAbs : ℤ) - (log2Aux a.den a.den : ℤ)
  else (log2Aux a.num.natAbs a.num.natAbs : ℤ) - (log2Aux a.den a.den : ℤ) - 1

/-- The nearest integer, a tie going to the even one. -/
def roundHalfEven (t : ℚ) : ℤ :=
  if t - ⌊t⌋ < 1 / 2 then ⌊t⌋
  else if 1 / 2 < t - ⌊t⌋ then ⌊t⌋ + 1
  else if ⌊t⌋ % 2 = 0 then ⌊t⌋ else ⌊t⌋ + 1

/-- The spacing of binary64 values around a positive `a`: 52 fraction bits below the
binary exponent, the exponent being at least -1022 (below it the values are
subnormal). -/
def ulp (a : ℚ) : ℚ := pow2 (max (floorLog2 a) (-1022) - 52)

/-- A positive `a` rounded to the nearest multiple of the spacing around it. -/
def roundMagnitude (a : ℚ) : ℚ := (roundHalfEven (a / ulp a) : ℚ) * ulp a

/-- The binary64 value of an exact result: round to nearest, ties to even, and
overflow to an infinity from `2 ^ 1024` on. -/
def round64 (q : ℚ) : Number :=
  if q = 0 then Number.fin 0
  else if pow2 1024 ≤ roundMagnitude |q| then Number.inf (decide (q < 0))
  else if q < 0 then Number.fin (-roundMagnitude |q|)
  else Number.fin (roundMagnitude |q|)

/-- The value `JSON.parse` gives for a number written in decimal. -/
def num (q : ℚ) : Number := round64 q

/-- The sum `a + b`. -/
def Number.add : Number → Number → Number
  | Number.fin a, Number.fin b => round64 (a + b)
  | Number.nan, _ => Number.nan
  | _, Number.nan => Number.nan
  | Number.inf s, Number.inf t => if s = t then Number.inf s else Number.nan
  | Number.inf s, Number.fin _ => Number.inf s
  | Number.fin _, Number.inf s => Number.inf s

/-- The negation `-a`. -/
def Number.neg : Number → Number
  | Number.fin a => Number.fin (-a)
  | Number.inf s => Number.inf (!s)
  | Number.nan => Number.nan

/-- The difference `a - b`. -/
def Number.sub (a b : Number) : Number := Number.add a (Number.neg b)

/-- The quotient `a / 2`. -/
def Number.half : Number → Number
  | Number.fin a => round64 (a / 2)
  | Number.inf s => Number.inf s
  | Number.nan => Number.nan

/-- The value `Math.abs(a)`. -/
def Number.abs : Number → Number
  | Number.fin a => Number.fin |a|
  | Number.inf _ => Number.inf false
  | Number.nan => Number.nan

/-- The comparison `a < b`: false as soon as one side is `NaN`. -/
def Number.lt : Number → Number → Bool
  | Number.fin a, Number.fin b => decide (a < b)
  | Number.fin _, Number.inf s => !s
  | Number.inf s, Number.fin _ => s
  | Number.inf s, Number.inf t => s && !t
  | Number.nan, _ => false
  | _, Number.nan => false

/-- Whether a number is finite. -/
def Number.isFinite : Number → Bool
  | Number.fin _ => true
  | _ => false

/-- The rational a finite number stands for (0 for the others). -/
def Number.toRat : Number → ℚ
  | Number.fin a => a
  | _ => 0

/-! ## Data model -/

/-- One element of `canvasData.nodes`.  `file`, `width` and `height` may be absent;
`rest` holds every field the plugin never looks at. -/
structure Node where
  id : Str
  type : Str
  file : Option Str
  x : Number
  y : Number
  width : Option Number
  height : Option Number
  rest : List (Str × Str)
  deriving DecidableEq

/-- The value `JSON.parse` gives for a canvas document: `nodes`, `edges` (each edge kept
as it stands) and whatever other top-level fields there are. -/
structure CanvasData where
  nodes : List Node
  edges : List Str
  rest : List (Str × Str)
  deriving DecidableEq

/-- The object built at lines 81-86: `id`, centre `x`, centre `y`, `file`. -/
structure Position where
  id : Str
  x : Number
  y : Number
  file : Str
  deriving DecidableEq

/-- The object built at lines 103-107: a position with its `line` and `column`. -/
structure ImagePosition where
  id : Str
  x : Number
  y : Number
  file : Str
  line : Nat
  column : Nat
  deriving DecidableEq

/-- The part of `this.settings` the rename pass reads. -/
structure Settings where
  targetCanvas : Str
  pfx : Str
  deriving DecidableEq

/-- What the plugin reads of the file `getActiveFile()` returns. -/
structure TFile where
  path : Str
  extension : Str
  parentPath : Str
  deriving DecidableEq

/-! ## Strings -/

/-- The array `s.split(sep)` for a one-character separator. -/
def split (sep : Char) : Str → List Str
  | [] => [[]]
  | c :: cs =>
    if c = sep then [] :: split sep cs
    else
      match split sep cs with
      | [] => [[c]]
      | seg :: segs => (c :: seg) :: segs

/-- The value of `arr.pop()`: the last element, `none` for `undefined`. -/
def pop (arr : List Str) : Option Str := arr.getLast?

/-- The alternatives of the regular expression at line 65, each with its leading dot. -/
def imageSuffixes : List Str :=
  [".png".toList, ".jpg".toList, ".jpeg".toList, ".gif".toList]

/-- The test `/\.(png|jpg|jpeg|gif)$/i` of line 65.  Without the `u` flag, `i` folds
only the ASCII letters onto the letters of the pattern, which is what `Char.toLower`
does; `$` without the `m` flag is the end of the string. -/
def matchesImage (f : Str) : Bool :=
  imageSuffixes.any (fun e => decide (e <:+ f.map Char.toLower))

/-- The decimal text a template literal gives for a non-negative integer. -/
def decimal (n : Nat) : Str := Nat.toDigits 10 n

/-! ## Filtering and positions (lines 62-95) -/

/-- The filter callback of lines 62-66. -/
def isImageNode (node : Node) : Bool :=
  decide (node.type = "file".toList) &&
    (match node.file with
     | some f => !f.isEmpty && matchesImage f
     | none => false)

/-- The value of `v || d` for a number or absent `v`: zero and `NaN` are falsy too. -/
def orDefault (v : Option Number) (d : Number) : Number :=
  match v with
  | some (Number.fin w) => if w = 0 then d else Number.fin w
  | some (Number.inf s) => Number.inf s
  | some Number.nan => d
  | none => d

/-- The map callback of lines 76-87; `none` is the `null` of line 79. -/
def toPosition (node : Node) : Option Position :=
  match node.file with
  | none => none
  | some f =>
    if f.isEmpty then none
    else some
      { id := node.id
        x := Number.add node.x (Number.half (orDefault node.width (Number.fin 100)))
        y := Number.add node.y (Number.half (orDefault node.height (Number.fin 100)))
        file := f }

/-- The array `positions` of lines 76-87. -/
def positions (nodes : List Node) : List Position := nodes.filterMap toPosition

/-! ## Grid coordinates (lines 97-108) -/

/-- Whether the comparator `(a, b) => a - b` lets `a` stand before `b`: its value is
not above zero (a `NaN` counts as zero). -/
def notAfter (a b : Number) : Bool := !Number.lt (Number.fin 0) (Number.sub a b)

/-- The result of `.sort((a, b) => a - b)`.  On an array without `NaN` the comparator
is consistent and every sort gives this order; with a `NaN` in it the order is left to
the engine, and this is the order of a stable insertion sort. -/
def sortNumeric (l : List Number) : List Number :=
  l.insertionSort (fun a b => notAfter a b = true)

/-- One insertion into a `Set`: a value already present is not added again. -/
def setAdd {α : Type} [DecidableEq α] (acc : List α) (v : α) : List α :=
  if v ∈ acc then acc else acc ++ [v]

/-- The array `[...new Set(l)]`: the values of `l` in order of first occurrence. -/
def newSet {α : Type} [DecidableEq α] (l : List α) : List α := l.foldl setAdd []

/-- The array `xCoords` of line 97. -/
def xCoords (ps : List Position) : List Number :=
  newSet (sortNumeric (ps.map (fun p => p.x)))

/-- The array `yCoords` of line 98. -/
def yCoords (ps : List Position) : List Number :=
  newSet (sortNumeric (ps.map (fun p => p.y)))

/-- The value of `arr.findIndex(p)`, `none` standing for `-1`. -/
def findIndex {α : Type} (p : α → Bool) : List α → Option Nat
  | [] => none
  | a :: l => if p a then some 0 else (findIndex p l).map (fun i => i + 1)

/-- The value of `i + 1` for the result of `findIndex`: `-1 + 1` is `0`. -/
def plusOne : Option Nat → Nat
  | some i => i + 1
  | none => 0

/-- The test `Math.abs(c - v) < 1` of lines 101 and 102. -/
def near (c v : Number) : Bool :=
  Number.lt (Number.abs (Number.sub c v)) (Number.fin 1)

/-- The index expression of lines 101 and 102 for a centre coordinate `v`. -/
def gridIndex (coords : List Number) (v : Number) : Nat :=
  plusOne (findIndex (fun c => near c v) coords)

/-- The map callback of lines 100-108. -/
def toImagePosition (xs ys : List Number) (pos : Position) : ImagePosition :=
  { id := pos.id
    x := pos.x
    y := pos.y
    file := pos.file
    line := gridIndex ys pos.y
    column := gridIndex xs pos.x }

/-- The array `imagePositions` of lines 100-108. -/
def imagePositions (ps : List Position) : List ImagePosition :=
  ps.map (toImagePosition (xCoords ps) (yCoords ps))

/-! ## Target names (lines 110-128) -/

/-- The value `canvasDir` of line 110. -/
def canvasDir (parentPath : Str) : Str :=
  if parentPath = [] then [] else parentPath ++ "/".toList

/-- Lines 114-128 for one element of `imagePositions`: the value of `newPath`, or `none`
when the loop body leaves through one of its two `continue`s before computing it. -/
def newPathOf (pfx dir : Str) (pos : ImagePosition) : Option Str :=
  if pos.file.isEmpty then none
  else
    match pop (split '/' pos.file) with
    | none => none
    | some fileName =>
      if fileName.isEmpty then none
      else
        let extension := (pop (split '.' fileName)).getD "undefined".toList
        some (dir ++ (pfx ++ ("L".toList ++ (decimal pos.line ++ ("C".toList ++
          (decimal pos.column ++ (".".toList ++ extension)))))))

/-! ## The vault and the world -/

/-- The two operations of `this.app.vault` on the file tree, over a state `σ`:
`getAbstractFileByPath` says whether a path resolves, `rename` gives the tree after
the move or `none` when it throws. -/
structure Vault (σ : Type) where
  getAbstractFileByPath : σ → Str → Bool
  rename : σ → Str → Str → Option σ

/-- A stored text, by what `JSON.parse` makes of it. -/
inductive Stored where
  /-- The text of an object with a `nodes` array, as `JSON.stringify(canvasData)`
  writes it. -/
  | canvas (d : CanvasData)
  /-- The text of a bare array of nodes, as `JSON.stringify(nodes.map(...))` writes it. -/
  | nodeArray (ns : List Node)
  /-- Any other text: not JSON, or a value whose `nodes` is not an array of nodes. -/
  | text (s : Str)
  deriving DecidableEq

/-- Everything a pass reads and changes: the active file, the file tree and the text
documents. -/
structure World (σ : Type) where
  activeFile : Option TFile
  files : σ
  docs : Str → Option Stored

/-- The call `vault.modify(file, text)`. -/
def World.modify {σ : Type} (w : World σ) (path : Str) (c : Stored) : World σ :=
  { w with docs := fun p => if p = path then some c else w.docs p }

/-- Lines 60-61 and the `.nodes.filter` of line 62: the read fails on a missing
document, `JSON.parse` fails on text that is not JSON, and `.filter` fails on a value
without a `nodes` array. -/
def readCanvas {σ : Type} (w : World σ) (path : Str) : Except Str CanvasData :=
  match w.docs path with
  | none => Except.error "read".toList
  | some (Stored.canvas d) => Except.ok d
  | some (Stored.nodeArray _) => Except.error "nodes".toList
  | some (Stored.text _) => Except.error "parse".toList

/-- A callback handed to `setTimeout`. -/
inductive FollowUp where
  /-- Lines 71 and 92: `() => this.renameImagesInActiveCanvas()`. -/
  | rerun
  /-- Line 137: `() => this.retryRename(oldPath, newPath, nodes)`; `nodes` is the array
  of the pass, read when the callback runs. -/
  | retry (oldPath newPath : Str)
  deriving DecidableEq

/-- How one rename attempt ended. -/
inductive Outcome where
  /-- Line 134: the old path did not resolve. -/
  | sourceMissing
  /-- Line 142 returned. -/
  | success
  /-- Line 142 threw (caught at line 150). -/
  | failure
  deriving DecidableEq

/-- One pass through line 131: the plan entry and how it ended. -/
structure Attempt where
  id : Str
  oldPath : Str
  newPath : Str
  outcome : Outcome
  deriving DecidableEq

/-- A node of `canvasData.nodes` with the mark of whether the filter of lines 62-66
put it into `nodes`.  The two arrays share their objects, so one list of slots stands
for both. -/
structure Slot where
  inNodes : Bool
  node : Node
  deriving DecidableEq

/-- Lines 143-145 on the shared objects: the first element of `nodes` whose `file` is
`oldPath` gets `newPath`; `none` when `find` returns `undefined`. -/
def assignFile (oldPath newPath : Str) : List Slot → Option (List Slot)
  | [] => none
  | s :: rest =>
    if s.inNodes && decide (s.node.file = some oldPath) then
      some ({ s with node := { s.node with file := some newPath } } :: rest)
    else (assignFile oldPath newPath rest).map (fun r => s :: r)

/-- The variables the loop of lines 113-154 changes. -/
structure LoopState (σ : Type) where
  files : σ
  slots : List Slot
  renamed : Bool
  scheduled : List FollowUp
  attempts : List Attempt

/-- One iteration of the loop of lines 113-154. -/
def renameStep {σ : Type} (V : Vault σ) (pfx dir : Str) (isPasteTriggered : Bool)
    (st : LoopState σ) (pos : ImagePosition) : LoopState σ :=
  match newPathOf pfx dir pos with
  | none => st
  | some newPath =>
    let oldPath := pos.file
    if oldPath = newPath then st
    else if !V.getAbstractFileByPath st.files oldPath then
      { st with
        scheduled :=
          if isPasteTriggered then st.scheduled ++ [FollowUp.retry oldPath newPath]
          else st.scheduled
        attempts := st.attempts ++ [⟨pos.id, oldPath, newPath, Outcome.sourceMissing⟩] }
    else
      match V.rename st.files oldPath newPath with
      | none =>
        { st with attempts := st.attempts ++ [⟨pos.id, oldPath, newPath, Outcome.failure⟩] }
      | some files' =>
        match assignFile oldPath newPath st.slots with
        | some slots' =>
          { st with
            files := files'
            slots := slots'
            renamed := true
            attempts := st.attempts ++ [⟨pos.id, oldPath, newPath, Outcome.success⟩] }
        | none =>
          { st with
            files := files'
            attempts := st.attempts ++ [⟨pos.id, oldPath, newPath, Outcome.success⟩] }

/-- What one call of `renameImagesInActiveCanvas` or `retryRename` leaves behind: the
world after it, the documents it wrote (path and text, in order), the callbacks it
gave to `setTimeout`, the renames it attempted, and the array `nodes` as the call
left it. -/
structure Result (σ : Type) where
  world : World σ
  writes : List (Str × Stored)
  scheduled : List FollowUp
  attempts : List Attempt
  nodes : List Node

/-- A call that changes nothing, apart from the callbacks it schedules. -/
def Result.idle {σ : Type} (w : World σ) (scheduled : List FollowUp) : Result σ :=
  { world := w, writes := [], scheduled := scheduled, attempts := [], nodes := [] }

/-- The callbacks of lines 70-72 and 91-93. -/
def rerunIfPaste (isPasteTriggered : Bool) : List FollowUp :=
  if isPasteTriggered then [FollowUp.rerun] else []

/-- The loop of lines 113-154, from the state line 112 leaves: nothing renamed yet, the
objects of `canvasData.nodes` as parsed, each marked by the filter of lines 62-66. -/
def renameLoop {σ : Type} (V : Vault σ) (pfx dir : Str) (isPasteTriggered : Bool)
    (files : σ) (allNodes : List Node) (ips : List ImagePosition) : LoopState σ :=
  ips.foldl (renameStep V pfx dir isPasteTriggered)
    { files := files
      slots := allNodes.map (fun n => ⟨isImageNode n, n⟩)
      renamed := false
      scheduled := []
      attempts := [] }

/-- Lines 60-159, the body of the `try`: an exception is `Except.error`. -/
def passBody {σ : Type} (V : Vault σ) (settings : Settings) (isPasteTriggered : Bool)
    (w : World σ) (activeFile : TFile) : Except Str (Result σ) :=
  match readCanvas w activeFile.path with
  | Except.error e => Except.error e
  | Except.ok canvasData =>
    let nodes := canvasData.nodes.filter isImageNode
    if nodes.length = 0 then Except.ok (Result.idle w (rerunIfPaste isPasteTriggered))
    else
      let ps := positions nodes
      if ps.length = 0 then Except.ok (Result.idle w (rerunIfPaste isPasteTriggered))
      else
        let st := renameLoop V settings.pfx (canvasDir activeFile.parentPath)
          isPasteTriggered w.files canvasData.nodes (imagePositions ps)
        let written : Stored :=
          Stored.canvas { canvasData with nodes := st.slots.map (fun s => s.node) }
        Except.ok
          { world :=
              if st.renamed then
                World.modify { w with files := st.files } activeFile.path written
              else { w with files := st.files }
            writes := if st.renamed then [(activeFile.path, written)] else []
            scheduled := st.scheduled
            attempts := st.attempts
            nodes := (st.slots.filter (fun s => s.inNodes)).map (fun s => s.node) }

/-- The method `renameImagesInActiveCanvas(isPasteTriggered)` (lines 55-163). -/
def renameImagesInActiveCanvas {σ : Type} (V : Vault σ) (settings : Settings)
    (isPasteTriggered : Bool) (w : World σ) : Result σ :=
  match w.activeFile with
  | none => Result.idle w []
  | some activeFile =>
    if activeFile.extension ≠ "canvas".toList ∨ activeFile.path ≠ settings.targetCanvas then
      Result.idle w []
    else
      match passBody V settings isPasteTriggered w activeFile with
      | Except.error _ => Result.idle w []
      | Except.ok r => r

/-- Line 177 on the array `nodes`: the first element whose `file` is `oldPath` gets
`newPath`. -/
def setFirstFile (oldPath newPath : Str) : List Node → List Node
  | [] => []
  | n :: rest =>
    if n.file = some oldPath then { n with file := some newPath } :: rest
    else n :: setFirstFile oldPath newPath rest

/-- The method `retryRename(oldPath, newPath, nodes)` (lines 165-187); `nodes` is the
array as it stands when the callback runs. -/
def retryRename {σ : Type} (V : Vault σ) (oldPath newPath : Str) (nodes : List Node)
    (w : World σ) : Result σ :=
  if !V.getAbstractFileByPath w.files oldPath then
    { Result.idle w [] with nodes := nodes }
  else
    match V.rename w.files oldPath newPath with
    | none => { Result.idle w [] with nodes := nodes }
    | some files' =>
      match nodes.find? (fun n => decide (n.file = some oldPath)) with
      | none => { Result.idle { w with files := files' } [] with nodes := nodes }
      | some found =>
        let node : Node := { found with file := some newPath }
        let nodes' := setFirstFile oldPath newPath nodes
        match w.activeFile with
        | none => { Result.idle { w with files := files' } [] with nodes := nodes' }
        | some activeFile =>
          let written : Stored :=
            Stored.nodeArray (nodes'.map (fun n => if n.file = some oldPath then node else n))
          { world := World.modify { w with files := files' } activeFile.path written
            writes := [(activeFile.path, written)]
            scheduled := []
            attempts := []
            nodes := nodes' }

/-- Running one `setTimeout` callback; `nodes` is what the array of the scheduling
pass holds by then. -/
def runFollowUp {σ : Type} (V : Vault σ) (settings : Settings) (nodes : List Node)
    (w : World σ) : FollowUp → Result σ
  | FollowUp.rerun => renameImagesInActiveCanvas V settings false w
  | FollowUp.retry oldPath newPath => retryRename V oldPath newPath nodes w


/-! ## Concrete canvases -/

/-- A file node whose `x` and `y` are written as the decimals `x` and `y`, without
`width` and `height`: the code centres it at `(x + 50, y + 50)`. -/
def fileNode (id file : String) (x y : ℚ) : Node :=
  { id := id.toList, type := "file".toList, file := some file.toList
    x := num x, y := num y, width := none, height := none, rest := [] }

/-- Four images with centres (0,0), (0,50), (100,0), (100,50). -/
def gridNodes : List Node :=
  [fileNode "n1" "a.png" (-50) (-50), fileNode "n2" "b.png" (-50) 0,
   fileNode "n3" "c.png" 50 (-50), fileNode "n4" "d.png" 50 0]

/-- Three images in a row whose centre x are 50, 50.5 and 51: the widths are 100, 101
and 100. -/
def chainNodes : List Node :=
  [fileNode "n1" "a.png" 0 0,
   { fileNode "n2" "b.png" 0 0 with width := some (num 101) },
   fileNode "n3" "c.png" 1 0]

/-- Two images whose centres are 0.999 apart in x and in y. -/
def closeNodes : List Node :=
  [fileNode "n1" "a.png" 0 0, fileNode "n2" "b.png" (999 / 1000) (999 / 1000)]

/-- A file tree given by the list of its paths: a path resolves when it is listed, and
a rename onto a listed path throws, as the host refuses an existing destination. -/
def pathVault : Vault (List Str) :=
  { getAbstractFileByPath := fun files p => decide (p ∈ files)
    rename := fun files oldPath newPath =>
      if newPath ∈ files then none else some (newPath :: files.erase oldPath) }

/-- The canvas `board.canvas` at the vault root. -/
def boardFile : TFile :=
  { path := "board.canvas".toList, extension := "canvas".toList, parentPath := [] }

/-- Settings that target `board.canvas` with the file name start "P_". -/
def boardSettings : Settings :=
  { targetCanvas := "board.canvas".toList, pfx := "P_".toList }

/-- A world in which `board.canvas` is active and holds the text `c`, with the listed
files in the vault. -/
def boardWorld (files : List String) (c : Stored) : World (List Str) :=
  { activeFile := some boardFile
    files := files.map String.toList
    docs := fun p => if p = boardFile.path then some c else none }

/-- A note of the canvas: a node of type `text`. -/
def textNode : Node :=
  { id := "t1".toList, type := "text".toList, file := none
    x := num 300, y := num 300, width := some (num 250), height := some (num 60)
    rest := [("text".toList, "hello".toList)] }

/-- A canvas with an image that already has its grid name, an image that has not, a
note, an embedded PDF and a file node without `file`. -/
def mixedCanvas : CanvasData :=
  { nodes :=
      [fileNode "n1" "P_L1C1.png" 0 0, textNode, fileNode "n2" "shot.PNG" 200 0,
       fileNode "n3" "paper.pdf" 400 0,
       { fileNode "n4" "" 600 0 with file := none }]
    edges := ["e1".toList]
    rest := [] }

/-- A canvas that shows the image `P_L1C1.png` twice: at line 1, column 1 and at line
1, column 2. -/
def twiceCanvas : CanvasData :=
  { nodes := [fileNode "n1" "P_L1C1.png" 0 0, fileNode "n2" "P_L1C1.png" 200 0]
    edges := []
    rest := [] }

/-- A canvas with a freshly pasted image, a note and an edge. -/
def pastedCanvas : CanvasData :=
  { nodes := [fileNode "n1" "shot.png" 0 0, textNode]
    edges := ["e1".toList]
    rest := [] }

/-- A canvas with a note only. -/
def noteCanvas : CanvasData :=
  { nodes := [textNode], edges := [], rest := [] }

/-- An image in a folder of a canvas in the folder `boards`. -/
def folderNodes : List Node := [fileNode "n1" "shots/My.Pic.JPEG" 0 0]

/-! ## The frame of a rename, in the words of the specification -/

/-- The node `n'` is the node `n` but for its `file` field, and it is `n` itself when
the filter of lines 62-66 rejects `n`. -/
def sameButFile (n n' : Node) : Prop :=
  n' = { n with file := n'.file } ∧ (isImageNode n = false → n' = n)

/-- The document `d'` is the document `d` but for the `file` fields of qualifying
nodes: same edges, same other top-level fields, as many nodes in the same order. -/
def sameButFiles (d d' : CanvasData) : Prop :=
  d'.edges = d.edges ∧ d'.rest = d.rest ∧ List.Forall₂ sameButFile d.nodes d'.nodes

/-- The centre of a node along one axis as the specification words it, computed in
binary64: the coordinate plus half the size, 100 standing in for a size that is absent
or falsy (zero or `NaN`). -/
def centre (coord : Number) (size : Option Number) : Number :=
  Number.add coord (Number.half
    (match size with
     | none => Number.fin 100
     | some w => if w = Number.fin 0 ∨ w = Number.nan then Number.fin 100 else w))

/-- Two images whose `x` are written 13.6 and 14.6. -/
def roundedNodes : List Node :=
  [fileNode "n1" "a.png" (68 / 5) 0, fileNode "n2" "b.png" (73 / 5) 0]

/-- Two images whose `x` are written 1e999 and -1e999: `JSON.parse` reads them as
`Infinity` and `-Infinity`. -/
def infiniteNodes : List Node :=
  [{ fileNode "n1" "a.png" 0 0 with x := Number.inf false },
   { fileNode "n2" "b.png" 0 0 with x := Number.inf true }]

/-- An image at `x = 0` with `width` 0 and an image at `x = -10` without `width`. -/
def zeroWidthNodes : List Node :=
  [{ fileNode "n1" "a.png" 0 0 with width := some (num 0) }, fileNode "n2" "b.png" (-10) 0]

/-- The centre the code computes for a coordinate written 0.999 and no size. -/
def closeCentre : Number := Number.add (num (999 / 1000)) (Number.half (Number.fin 100))


/-! ## Facts about binary64 rounding -/

theorem pow2_eq_zpow (k : ℤ) : pow2 k = (2 : ℚ) ^ k := by
  unfold pow2
  split_ifs with h
  · obtain ⟨n, rfl⟩ := Int.eq_ofNat_of_zero_le h
    simp
  · have hk : 0 ≤ -k := by omega
    obtain ⟨n, hn⟩ := Int.eq_ofNat_of_zero_le hk
    have e : k = -(n : ℤ) := by omega
    rw [hn, e, zpow_neg]
    simp

theorem pow2_pos (k : ℤ) : 0 < pow2 k := by
  rw [pow2_eq_zpow]
  exact zpow_pos (by norm_num) k

theorem pow2_add (m n : ℤ) : pow2 (m + n) = pow2 m * pow2 n := by
  rw [pow2_eq_zpow, pow2_eq_zpow, pow2_eq_zpow]
  exact zpow_add₀ (by norm_num) m n

theorem pow2_le_pow2 {m n : ℤ} (h : m ≤ n) : pow2 m ≤ pow2 n := by
  rw [pow2_eq_zpow, pow2_eq_zpow]
  exact zpow_le_zpow_right₀ (by norm_num) h

theorem pow2_lt_pow2_iff {m n : ℤ} : pow2 m < pow2 n ↔ m < n := by
  rw [pow2_eq_zpow, pow2_eq_zpow]
  exact zpow_lt_zpow_iff_right₀ (by norm_num)

theorem pow2_zero : pow2 0 = 1 := by
  rw [pow2_eq_zpow]
  simp

theorem pow2_natCast (n : ℕ) : pow2 (n : ℤ) = ((2 ^ n : ℕ) : ℚ) := by
  rw [pow2_eq_zpow]
  simp

theorem log2Aux_spec : ∀ (fuel n : Nat), n ≤ fuel → 0 < n →
    2 ^ log2Aux fuel n ≤ n ∧ n < 2 ^ (log2Aux fuel n + 1) := by
  intro fuel
  induction fuel with
  | zero => intro n h1 h2; omega
  | succ f ih =>
    intro n h1 h2
    unfold log2Aux
    by_cases hn : n < 2
    · simp only [hn, if_true]
      constructor
      · simpa using h2
      · simpa using hn
    · simp only [hn, if_false]
      have hle : n / 2 ≤ f := by omega
      have hpos : 0 < n / 2 := by omega
      obtain ⟨h3, h4⟩ := ih (n / 2) hle hpos
      rw [pow_succ, pow_succ]
      rw [pow_succ] at h4
      constructor <;> omega

theorem bracket_of_bits (a : ℚ) (n d ln ld : ℕ) (ha : a = (n : ℚ) / (d : ℚ)) (hd0 : 0 < d)
    (hn1 : 2 ^ ln ≤ n) (hn2 : n < 2 ^ (ln + 1)) (hd1 : 2 ^ ld ≤ d) (hd2 : d < 2 ^ (ld + 1)) :
    pow2 ((ln : ℤ) - (ld : ℤ) - 1) ≤ a ∧ a < pow2 ((ln : ℤ) - (ld : ℤ) + 1) := by
  have hdq : (0 : ℚ) < (d : ℚ) := by exact_mod_cast hd0
  have hn1q : ((2 : ℚ) ^ ln) ≤ (n : ℚ) := by exact_mod_cast hn1
  have hn2q : (n : ℚ) < (2 : ℚ) ^ (ln + 1) := by exact_mod_cast hn2
  have hd1q : ((2 : ℚ) ^ ld) ≤ (d : ℚ) := by exact_mod_cast hd1
  have hd2q : (d : ℚ) < (2 : ℚ) ^ (ld + 1) := by exact_mod_cast hd2
  have two_ne : (2 : ℚ) ≠ 0 := by norm_num
  constructor
  · rw [pow2_eq_zpow,
      show ((ln : ℤ) - (ld : ℤ) - 1) = ((ln : ℕ) : ℤ) - ((ld + 1 : ℕ) : ℤ) by push_cast; ring,
      zpow_sub₀ two_ne, zpow_natCast, zpow_natCast, ha]
    have hpd : (0 : ℚ) < (2 : ℚ) ^ (ld + 1) := by positivity
    rw [div_le_div_iff₀ hpd hdq]
    calc (2 : ℚ) ^ ln * (d : ℚ) ≤ (n : ℚ) * (d : ℚ) := by
          exact mul_le_mul_of_nonneg_right hn1q (le_of_lt hdq)
      _ ≤ (n : ℚ) * 2 ^ (ld + 1) := by
          exact mul_le_mul_of_nonneg_left (le_of_lt hd2q) (by positivity)
  · rw [pow2_eq_zpow,
      show ((ln : ℤ) - (ld : ℤ) + 1) = ((ln + 1 : ℕ) : ℤ) - (ld : ℤ) by push_cast; ring,
      zpow_sub₀ two_ne, zpow_natCast, zpow_natCast, ha]
    have hpd : (0 : ℚ) < (2 : ℚ) ^ ld := by positivity
    rw [div_lt_div_iff₀ hdq hpd]
    calc (n : ℚ) * 2 ^ ld < 2 ^ (ln + 1) * 2 ^ ld := by
          exact mul_lt_mul_of_pos_right hn2q hpd
      _ ≤ 2 ^ (ln + 1) * (d : ℚ) := by
          exact mul_le_mul_of_nonneg_left hd1q (by positivity)

/-- The binary exponent brackets a positive rational. -/
theorem floorLog2_spec (a : ℚ) (ha : 0 < a) :
    pow2 (floorLog2 a) ≤ a ∧ a < pow2 (floorLog2 a + 1) := by
  have hnum : 0 < a.num := Rat.num_pos.2 ha
  have hn0 : 0 < a.num.natAbs := Int.natAbs_pos.2 (ne_of_gt hnum)
  have hd0 : 0 < a.den := a.den_pos
  obtain ⟨hn1, hn2⟩ := log2Aux_spec a.num.natAbs a.num.natAbs le_rfl hn0
  obtain ⟨hd1, hd2⟩ := log2Aux_spec a.den a.den le_rfl hd0
  have hcast : ((a.num.natAbs : ℕ) : ℚ) = (a.num : ℚ) := by
    rw [← Int.cast_natCast, Int.natAbs_of_nonneg (le_of_lt hnum)]
  have ha' : a = (a.num.natAbs : ℚ) / (a.den : ℚ) := by
    rw [hcast]
    exact (Rat.num_div_den a).symm
  obtain ⟨hlo, hup⟩ := bracket_of_bits a _ _ _ _ ha' hd0 hn1 hn2 hd1 hd2
  unfold floorLog2
  split_ifs with h
  · exact ⟨h, hup⟩
  · refine ⟨hlo, ?_⟩
    rw [sub_add_cancel]
    exact lt_of_not_le h


theorem floor_le_roundHalfEven (t : ℚ) : ⌊t⌋ ≤ roundHalfEven t := by
  unfold roundHalfEven
  split_ifs <;> omega

theorem roundHalfEven_le_floor_succ (t : ℚ) : roundHalfEven t ≤ ⌊t⌋ + 1 := by
  unfold roundHalfEven
  split_ifs <;> omega

theorem le_roundHalfEven (t : ℚ) (m : ℤ) (h : (m : ℚ) ≤ t) : m ≤ roundHalfEven t :=
  le_trans (Int.le_floor.2 h) (floor_le_roundHalfEven t)

theorem roundHalfEven_le (t : ℚ) (m : ℤ) (h : t ≤ (m : ℚ)) : roundHalfEven t ≤ m := by
  have hf : ⌊t⌋ ≤ m := by
    have := Int.floor_le t
    exact_mod_cast le_trans this h
  rcases lt_or_eq_of_le hf with h1 | h1
  · have := roundHalfEven_le_floor_succ t
    omega
  · have ht : t = (m : ℚ) := by
      apply le_antisymm h
      rw [← h1]
      exact Int.floor_le t
    unfold roundHalfEven
    rw [ht]
    simp

/-- Below an odd integer and a half, rounding stays at or below the integer; from there
on it goes above. -/
theorem roundHalfEven_le_odd (t : ℚ) (k : ℤ) (hk : k % 2 = 1) :
    roundHalfEven t ≤ k ↔ t < (k : ℚ) + 1 / 2 := by
  constructor
  · intro h
    by_contra hc
    push_neg at hc
    have hfl : k ≤ ⌊t⌋ := Int.le_floor.2 (by linarith)
    rcases lt_or_eq_of_le hfl with h1 | h1
    · have := floor_le_roundHalfEven t
      omega
    · have hfrac : ¬ (t - (⌊t⌋ : ℚ) < 1 / 2) := by
        rw [← h1]
        linarith
      unfold roundHalfEven at h
      rw [if_neg hfrac] at h
      split_ifs at h <;> omega
  · intro h
    by_cases hle : t ≤ (k : ℚ)
    · exact roundHalfEven_le t k hle
    · push_neg at hle
      have hfl : ⌊t⌋ = k := by
        rw [Int.floor_eq_iff]
        constructor
        · exact le_of_lt hle
        · linarith
      unfold roundHalfEven
      rw [hfl, if_pos (by linarith)]

theorem ulp_pos (a : ℚ) : 0 < ulp a := pow2_pos _

theorem roundMagnitude_nonneg (a : ℚ) (ha : 0 ≤ a) : 0 ≤ roundMagnitude a := by
  unfold roundMagnitude
  apply mul_nonneg _ (le_of_lt (ulp_pos a))
  have h : (0 : ℤ) ≤ roundHalfEven (a / ulp a) :=
    le_roundHalfEven _ 0 (by simpa using div_nonneg ha (le_of_lt (ulp_pos a)))
  exact_mod_cast h

/-- A value at least one spacing large does not round to zero. -/
theorem ulp_le_roundMagnitude (a : ℚ) (h : ulp a ≤ a) : ulp a ≤ roundMagnitude a := by
  unfold roundMagnitude
  have hu := ulp_pos a
  have h1 : (1 : ℤ) ≤ roundHalfEven (a / ulp a) := by
    apply le_roundHalfEven
    rw [le_div_iff₀ hu]
    simpa using h
  have h2 : (1 : ℚ) ≤ (roundHalfEven (a / ulp a) : ℚ) := by exact_mod_cast h1
  calc ulp a = 1 * ulp a := (one_mul _).symm
    _ ≤ (roundHalfEven (a / ulp a) : ℚ) * ulp a := mul_le_mul_of_nonneg_right h2 (le_of_lt hu)

/-- The smallest positive binary64 value is at least one spacing, wherever it is. -/
theorem ulp_le_of_tiny_le (a : ℚ) (ha : pow2 (-1074) ≤ a) : ulp a ≤ a := by
  have hpos : 0 < a := lt_of_lt_of_le (pow2_pos _) ha
  obtain ⟨hlo, -⟩ := floorLog2_spec a hpos
  unfold ulp
  rcases le_total (floorLog2 a) (-1022) with h | h
  · rw [max_eq_right h]
    exact ha
  · rw [max_eq_left h]
    exact le_trans (pow2_le_pow2 (by omega)) hlo

/-- Rounding does not fall below the power of two under the value. -/
theorem pow2_le_roundMagnitude (a : ℚ) (ha : 0 < a) (he : -1022 ≤ floorLog2 a) :
    pow2 (floorLog2 a) ≤ roundMagnitude a := by
  obtain ⟨hlo, -⟩ := floorLog2_spec a ha
  have hu := ulp_pos a
  have hue : ulp a = pow2 (floorLog2 a - 52) := by
    unfold ulp
    rw [max_eq_left he]
  have hsplit : pow2 (floorLog2 a) = pow2 52 * ulp a := by
    rw [hue, ← pow2_add]
    congr 1
    ring
  have h52 : pow2 52 = (((2 : ℤ) ^ 52 : ℤ) : ℚ) := by
    rw [pow2_eq_zpow]
    norm_num
  have h1 : ((2 : ℤ) ^ 52 : ℤ) ≤ roundHalfEven (a / ulp a) := by
    apply le_roundHalfEven
    rw [le_div_iff₀ hu, ← h52, ← hsplit]
    exact hlo
  have h2 : pow2 52 ≤ (roundHalfEven (a / ulp a) : ℚ) := by
    rw [h52]
    exact_mod_cast h1
  unfold roundMagnitude
  rw [hsplit]
  exact mul_le_mul_of_nonneg_right h2 (le_of_lt hu)

/-- Rounding does not rise above the next power of two. -/
theorem roundMagnitude_le_pow2 (a : ℚ) (ha : 0 < a) :
    roundMagnitude a ≤ pow2 (max (floorLog2 a) (-1022) + 1) := by
  obtain ⟨-, hup⟩ := floorLog2_spec a ha
  have hu := ulp_pos a
  have hsplit : pow2 (max (floorLog2 a) (-1022) + 1) = pow2 53 * ulp a := by
    unfold ulp
    rw [← pow2_add]
    congr 1
    ring
  have h53 : pow2 53 = (((2 : ℤ) ^ 53 : ℤ) : ℚ) := by
    rw [pow2_eq_zpow]
    norm_num
  have hle : a ≤ pow2 53 * ulp a := by
    rw [← hsplit]
    exact le_trans (le_of_lt hup) (pow2_le_pow2 (by omega))
  have h1 : roundHalfEven (a / ulp a) ≤ ((2 : ℤ) ^ 53 : ℤ) := by
    apply roundHalfEven_le
    rw [div_le_iff₀ hu, ← h53]
    exact hle
  have h2 : (roundHalfEven (a / ulp a) : ℚ) ≤ pow2 53 := by
    rw [h53]
    exact_mod_cast h1
  unfold roundMagnitude
  rw [hsplit]
  exact mul_le_mul_of_nonneg_right h2 (le_of_lt hu)

/-- A value of at least 1 rounds to at least 1. -/
theorem one_le_roundMagnitude (a : ℚ) (ha : 1 ≤ a) : 1 ≤ roundMagnitude a := by
  have hpos : 0 < a := lt_of_lt_of_le one_pos ha
  obtain ⟨-, hup⟩ := floorLog2_spec a hpos
  have he : 0 ≤ floorLog2 a := by
    have h1 : pow2 0 < pow2 (floorLog2 a + 1) := by
      rw [pow2_zero]
      exact lt_of_le_of_lt ha hup
    have := pow2_lt_pow2_iff.1 h1
    omega
  have h2 := pow2_le_roundMagnitude a hpos (by omega)
  have h3 : pow2 0 ≤ pow2 (floorLog2 a) := pow2_le_pow2 he
  rw [pow2_zero] at h3
  exact le_trans h3 h2


/-- Where rounding stops short of 1: strictly below `1 - 2 ^ (-54)`, half a spacing
under 1. -/
theorem roundMagnitude_lt_one_iff (a : ℚ) (ha : 0 < a) :
    roundMagnitude a < 1 ↔ a < 1 - pow2 (-54) := by
  have h54 : pow2 (-54) = 1 / 2 ^ 54 := by
    rw [pow2_eq_zpow]
    norm_num
  by_cases h1 : 1 ≤ a
  · constructor
    · intro h
      exact absurd (one_le_roundMagnitude a h1) (not_le.2 h)
    · intro h
      have := pow2_pos (-54)
      linarith
  · push_neg at h1
    obtain ⟨hlo, hup⟩ := floorLog2_spec a ha
    have he : floorLog2 a < 0 := by
      have h2 : pow2 (floorLog2 a) < pow2 0 := by
        rw [pow2_zero]
        exact lt_of_le_of_lt hlo h1
      exact pow2_lt_pow2_iff.1 h2
    have hhalf : pow2 (-1) = 1 / 2 := by
      rw [pow2_eq_zpow]
      norm_num
    by_cases he1 : floorLog2 a = -1
    · have hu : ulp a = 1 / 2 ^ 53 := by
        unfold ulp
        rw [he1, pow2_eq_zpow]
        norm_num
      unfold roundMagnitude
      rw [hu, h54]
      have hodd : ((2 : ℤ) ^ 53 - 1) % 2 = 1 := by norm_num
      have key := roundHalfEven_le_odd (a / (1 / 2 ^ 53)) ((2 : ℤ) ^ 53 - 1) hodd
      constructor
      · intro h
        have hn : roundHalfEven (a / (1 / 2 ^ 53)) ≤ (2 : ℤ) ^ 53 - 1 := by
          have h3 : (roundHalfEven (a / (1 / 2 ^ 53)) : ℚ) < (((2 : ℤ) ^ 53 : ℤ) : ℚ) := by
            have h4 : (roundHalfEven (a / (1 / 2 ^ 53)) : ℚ) * (1 / 2 ^ 53) < 1 := h
            rw [mul_one_div, div_lt_one (by positivity)] at h4
            push_cast
            exact h4
          have h5 : roundHalfEven (a / (1 / 2 ^ 53)) < (2 : ℤ) ^ 53 := by exact_mod_cast h3
          omega
        have h6 := key.1 hn
        rw [div_lt_iff₀ (by positivity)] at h6
        push_cast at h6
        linarith
      · intro h
        have h6 : a / (1 / 2 ^ 53) < (((2 : ℤ) ^ 53 - 1 : ℤ) : ℚ) + 1 / 2 := by
          rw [div_lt_iff₀ (by positivity)]
          push_cast
          linarith
        have hn := key.2 h6
        have h3 : (roundHalfEven (a / (1 / 2 ^ 53)) : ℚ) ≤ (((2 : ℤ) ^ 53 - 1 : ℤ) : ℚ) := by
          exact_mod_cast hn
        push_cast at h3
        rw [mul_one_div, div_lt_one (by positivity)]
        linarith
    · have he2 : floorLog2 a ≤ -2 := by omega
      have hE : max (floorLog2 a) (-1022) + 1 ≤ -1 := by
        have : max (floorLog2 a) (-1022) ≤ -2 := max_le he2 (by norm_num)
        omega
      constructor
      · intro _
        have h3 : a < pow2 (-1) := lt_of_lt_of_le hup (pow2_le_pow2 (by omega))
        rw [hhalf] at h3
        rw [h54]
        have : (1 : ℚ) / 2 ^ 54 < 1 / 2 := by norm_num
        linarith
      · intro _
        have h3 := le_trans (roundMagnitude_le_pow2 a ha) (pow2_le_pow2 hE)
        rw [hhalf] at h3
        linarith

/-- Every rounded magnitude is a whole number of smallest steps `2 ^ (-1074)`. -/
theorem roundMagnitude_grid (a : ℚ) : ∃ k : ℤ, roundMagnitude a = (k : ℚ) * pow2 (-1074) := by
  have hE : 0 ≤ max (floorLog2 a) (-1022) + 1022 := by
    have := le_max_right (floorLog2 a) (-1022)
    omega
  obtain ⟨j, hj⟩ := Int.eq_ofNat_of_zero_le hE
  have hu : ulp a = ((2 ^ j : ℕ) : ℚ) * pow2 (-1074) := by
    unfold ulp
    rw [show max (floorLog2 a) (-1022) - 52 = (max (floorLog2 a) (-1022) + 1022) + (-1074) by ring,
      pow2_add, hj, pow2_natCast]
  refine ⟨roundHalfEven (a / ulp a) * ((2 ^ j : ℕ) : ℤ), ?_⟩
  unfold roundMagnitude
  rw [hu]
  push_cast
  ring

theorem round64_grid (q r : ℚ) (h : round64 q = Number.fin r) :
    ∃ k : ℤ, r = (k : ℚ) * pow2 (-1074) := by
  unfold round64 at h
  split_ifs at h with h0 h1 h2
  · cases h
    exact ⟨0, by simp⟩
  · cases h
    obtain ⟨k, hk⟩ := roundMagnitude_grid |q|
    exact ⟨-k, by rw [hk]; push_cast; ring⟩
  · cases h
    exact roundMagnitude_grid |q|

/-- The test of lines 101 and 102 on two finite numbers: the difference is rounded
before it is compared with 1, so the test holds exactly below `1 - 2 ^ (-54)`. -/
theorem near_fin (c v : ℚ) :
    near (Number.fin c) (Number.fin v) = decide (|c - v| < 1 - pow2 (-54)) := by
  have hτ : (0 : ℚ) < 1 - pow2 (-54) := by
    have : pow2 (-54) = 1 / 2 ^ 54 := by
      rw [pow2_eq_zpow]
      norm_num
    rw [this]
    norm_num
  unfold near Number.sub Number.neg Number.add
  simp only []
  rw [← sub_eq_add_neg]
  unfold round64
  by_cases h0 : c - v = 0
  · simp [h0, Number.abs, Number.lt, hτ]
  · have hpos : 0 < |c - v| := abs_pos.2 h0
    have key := roundMagnitude_lt_one_iff |c - v| hpos
    have hnn := roundMagnitude_nonneg |c - v| (le_of_lt hpos)
    simp only [h0, if_false]
    by_cases hbig : pow2 1024 ≤ roundMagnitude |c - v|
    · have h1 : ¬ roundMagnitude |c - v| < 1 := by
        have : (1 : ℚ) ≤ pow2 1024 := by
          rw [← pow2_zero]
          exact pow2_le_pow2 (by norm_num)
        linarith
      have h2 : ¬ |c - v| < 1 - pow2 (-54) := fun h => h1 (key.2 h)
      simp [hbig, Number.abs, Number.lt, h2]
    · simp only [hbig, if_false]
      by_cases hneg : c - v < 0
      · simp only [hneg, if_true, Number.abs, Number.lt, abs_neg, abs_of_nonneg hnn]
        by_cases h3 : |c - v| < 1 - pow2 (-54)
        · simp [h3, key.2 h3]
        · have h4 : ¬ roundMagnitude |c - v| < 1 := fun h => h3 (key.1 h)
          simp [h3, h4]
      · simp only [hneg, if_false, Number.abs, Number.lt, abs_of_nonneg hnn]
        by_cases h3 : |c - v| < 1 - pow2 (-54)
        · simp [h3, key.2 h3]
        · have h4 : ¬ roundMagnitude |c - v| < 1 := fun h => h3 (key.1 h)
          simp [h3, h4]

/-- On binary64 values the comparator `(a, b) => a - b` orders as the values do: a
difference of two distinct values is at least one smallest step and does not round to
zero. -/
theorem notAfter_fin (a b : ℚ) (ha : ∃ k : ℤ, a = (k : ℚ) * pow2 (-1074))
    (hb : ∃ k : ℤ, b = (k : ℚ) * pow2 (-1074)) :
    notAfter (Number.fin a) (Number.fin b) = true ↔ a ≤ b := by
  unfold notAfter Number.sub Number.neg Number.add
  simp only []
  rw [← sub_eq_add_neg]
  unfold round64
  by_cases h0 : a - b = 0
  · have : a ≤ b := by linarith
    simp [h0, Number.lt, this]
  · have hpos : 0 < |a - b| := abs_pos.2 h0
    have hnn := roundMagnitude_nonneg |a - b| (le_of_lt hpos)
    simp only [h0, if_false]
    by_cases hneg : a - b < 0
    · have hle : a ≤ b := by linarith
      by_cases hbig : pow2 1024 ≤ roundMagnitude |a - b|
      · simp [hbig, hneg, Number.lt, hle]
      · simp only [hbig, if_false, hneg, if_true, Number.lt]
        have : ¬ (0 : ℚ) < -roundMagnitude |a - b| := by linarith
        simp [this, hle]
    · have hgt : b < a := by
        rcases lt_or_gt_of_ne h0 with h | h
        · exact absurd h hneg
        · linarith
      have hnle : ¬ a ≤ b := not_le.2 hgt
      obtain ⟨ka, hka⟩ := ha
      obtain ⟨kb, hkb⟩ := hb
      have hη := pow2_pos (-1074)
      have hk : kb < ka := by
        by_contra hc
        push_neg at hc
        have : (ka : ℚ) ≤ (kb : ℚ) := by exact_mod_cast hc
        have := mul_le_mul_of_nonneg_right this (le_of_lt hη)
        rw [← hka, ← hkb] at this
        exact hnle this
      have hstep : pow2 (-1074) ≤ |a - b| := by
        rw [abs_of_pos (by linarith), hka, hkb, ← sub_mul]
        have h1 : (1 : ℚ) ≤ (ka : ℚ) - (kb : ℚ) := by
          have : kb + 1 ≤ ka := hk
          have : ((kb + 1 : ℤ) : ℚ) ≤ (ka : ℚ) := by exact_mod_cast this
          push_cast at this
          linarith
        calc pow2 (-1074) = 1 * pow2 (-1074) := (one_mul _).symm
          _ ≤ ((ka : ℚ) - (kb : ℚ)) * pow2 (-1074) :=
            mul_le_mul_of_nonneg_right h1 (le_of_lt hη)
      have hr : 0 < roundMagnitude |a - b| :=
        lt_of_lt_of_le (ulp_pos _) (ulp_le_roundMagnitude _ (ulp_le_of_tiny_le _ hstep))
      by_cases hbig : pow2 1024 ≤ roundMagnitude |a - b|
      · simp [hbig, hneg, Number.lt, hnle]
      · simp [hbig, hneg, Number.lt, hnle, hr]


/-! ## Facts about the coordinate arrays -/

theorem mem_foldl_setAdd {α : Type} [DecidableEq α] (l : List α) :
    ∀ (acc : List α) (x : α), x ∈ l.foldl setAdd acc ↔ x ∈ acc ∨ x ∈ l := by
  induction l with
  | nil => intro acc x; simp
  | cons v t ih =>
    intro acc x
    simp only [List.foldl_cons, ih, List.mem_cons]
    unfold setAdd
    split_ifs with h
    · constructor
      · rintro (h1 | h1)
        · exact Or.inl h1
        · exact Or.inr (Or.inr h1)
      · rintro (h1 | h1 | h1)
        · exact Or.inl h1
        · exact Or.inl (h1 ▸ h)
        · exact Or.inr h1
    · simp [or_assoc]

theorem pairwise_foldl_setAdd (l : List ℚ) :
    ∀ acc : List ℚ, acc.Pairwise (fun a b => a < b) → (∀ a ∈ acc, ∀ b ∈ l, a ≤ b) →
      l.Pairwise (fun a b => a ≤ b) → (l.foldl setAdd acc).Pairwise (fun a b => a < b) := by
  induction l with
  | nil => intro acc h _ _; simpa using h
  | cons v t ih =>
    intro acc hacc hle hl
    rw [List.pairwise_cons] at hl
    simp only [List.foldl_cons]
    apply ih
    · unfold setAdd
      split_ifs with h
      · exact hacc
      · rw [List.pairwise_append]
        refine ⟨hacc, List.pairwise_singleton _ _, ?_⟩
        intro a ha b hb
        rw [List.mem_singleton] at hb
        subst hb
        exact lt_of_le_of_ne (hle a ha _ (List.mem_cons_self _ _)) (fun e => h (e ▸ ha))
    · intro a ha b hb
      unfold setAdd at ha
      split_ifs at ha with h
      · exact hle a ha b (List.mem_cons_of_mem _ hb)
      · rcases List.mem_append.1 ha with h1 | h1
        · exact hle a h1 b (List.mem_cons_of_mem _ hb)
        · rw [List.mem_singleton] at h1
          subst h1
          exact hl.1 b hb
    · exact hl.2

/-- The distinct values of a list of rationals, sorted: strictly ascending. -/
theorem newSet_sort_pairwise (l : List ℚ) :
    (newSet (l.insertionSort (fun a b => a ≤ b))).Pairwise (fun a b => a < b) := by
  unfold newSet
  apply pairwise_foldl_setAdd _ [] List.Pairwise.nil
  · intro a ha; simp at ha
  · exact List.sorted_insertionSort (fun a b : ℚ => a ≤ b) l

theorem mem_newSet_sort (l : List ℚ) (x : ℚ) :
    x ∈ newSet (l.insertionSort (fun a b => a ≤ b)) ↔ x ∈ l := by
  unfold newSet
  rw [mem_foldl_setAdd]
  simp [List.mem_insertionSort]

theorem foldl_setAdd_map {α β : Type} [DecidableEq α] [DecidableEq β] (f : α → β)
    (hf : Function.Injective f) (l : List α) :
    ∀ acc : List α, (l.map f).foldl setAdd (acc.map f) = (l.foldl setAdd acc).map f := by
  induction l with
  | nil => intro acc; rfl
  | cons v t ih =>
    intro acc
    simp only [List.map_cons, List.foldl_cons]
    have e : setAdd (acc.map f) (f v) = (setAdd acc v).map f := by
      unfold setAdd
      by_cases h : v ∈ acc
      · have h' : f v ∈ acc.map f := List.mem_map_of_mem f h
        simp [h, h']
      · have h' : f v ∉ acc.map f := by
          intro hm
          obtain ⟨u, hu, hfu⟩ := List.mem_map.1 hm
          exact h (hf hfu ▸ hu)
        simp [h, h']
    rw [e, ih]

theorem newSet_map {α β : Type} [DecidableEq α] [DecidableEq β] (f : α → β)
    (hf : Function.Injective f) (l : List α) : newSet (l.map f) = (newSet l).map f := by
  unfold newSet
  exact foldl_setAdd_map f hf l []

theorem findIndex_map {α β : Type} (f : α → β) (p : β → Bool) (l : List α) :
    findIndex p (l.map f) = findIndex (fun a => p (f a)) l := by
  induction l with
  | nil => rfl
  | cons a t ih => simp [findIndex, ih]

theorem findIndex_congr {α : Type} (p q : α → Bool) (l : List α) (h : ∀ a ∈ l, p a = q a) :
    findIndex p l = findIndex q l := by
  induction l with
  | nil => rfl
  | cons a t ih =>
    simp only [findIndex]
    rw [h a (List.mem_cons_self _ _), ih (fun b hb => h b (List.mem_cons_of_mem _ hb))]

theorem fin_injective : Function.Injective Number.fin := by
  intro a b h
  cases h
  rfl

/-- Where `findIndex` stops in a strictly ascending array that holds `v`, for a test
that holds within `t` of `v`: behind the values that are at most `v - t`. -/
theorem findIndex_near (v t : ℚ) (ht : 0 < t) :
    ∀ l : List ℚ, l.Pairwise (fun a b => a < b) → v ∈ l →
      findIndex (fun c => decide (|c - v| < t)) l
        = some (l.filter (fun c => decide (c ≤ v - t))).length := by
  intro l
  induction l with
  | nil => intro _ h; simp at h
  | cons a u ih =>
    intro hp hv
    rw [List.pairwise_cons] at hp
    by_cases hnear : |a - v| < t
    · have h0 : (a :: u).filter (fun c => decide (c ≤ v - t)) = [] := by
        rw [List.filter_eq_nil_iff]
        intro c hc
        have ha : v - t < a := by have := (abs_lt.1 hnear).1; linarith
        rcases List.mem_cons.1 hc with h | h
        · subst h; simpa using ha
        · have := hp.1 c h
          simp only [decide_eq_true_eq, not_le]
          linarith
      simp [findIndex, hnear, h0]
    · have hne : v ≠ a := by
        intro e; apply hnear; rw [e]; simpa using ht
      have hvt : v ∈ u := by
        rcases List.mem_cons.1 hv with h | h
        · exact absurd h hne
        · exact h
      have hlt : a < v := hp.1 v hvt
      have hle : a ≤ v - t := by
        by_contra hc
        apply hnear
        rw [abs_lt]
        constructor <;> linarith
      simp [findIndex, hnear, hle, ih hp.2 hvt]

/-- More values lie at or below a larger bound, strictly when some value of the array
separates the two bounds. -/
theorem filter_le_length_lt (l : List ℚ) (s t c : ℚ) (hc : c ∈ l) (h1 : s < c) (h2 : c ≤ t) :
    (l.filter (fun d => decide (d ≤ s))).length < (l.filter (fun d => decide (d ≤ t))).length := by
  have hst : s ≤ t := le_trans (le_of_lt h1) h2
  have e : l.filter (fun d => decide (d ≤ s))
      = (l.filter (fun d => decide (d ≤ t))).filter (fun d => decide (d ≤ s)) := by
    rw [List.filter_filter]
    apply List.filter_congr
    intro x _
    by_cases hx : x ≤ s
    · simp [hx, le_trans hx hst]
    · simp [hx]
  rw [e, List.length_filter_lt_length_iff_exists]
  refine ⟨c, ?_, ?_⟩
  · simp [List.mem_filter, hc, h2]
  · simpa using h1

/-- On finite binary64 values, sorting with the comparator and sorting the rationals
agree. -/
theorem sortNumeric_fin (qs : List ℚ) (hg : ∀ a ∈ qs, ∃ k : ℤ, a = (k : ℚ) * pow2 (-1074)) :
    sortNumeric (qs.map Number.fin) = (qs.insertionSort (fun a b => a ≤ b)).map Number.fin := by
  unfold sortNumeric
  symm
  apply List.map_insertionSort
  intro a ha b hb
  exact (notAfter_fin a b (hg a ha) (hg b hb)).symm

/-- The index the code gives a finite centre `a` among finite centres `qs`: one more
than the number of distinct centres that are at most `a - (1 - 2 ^ (-54))`. -/
theorem gridIndex_fin (qs : List ℚ) (hg : ∀ a ∈ qs, ∃ k : ℤ, a = (k : ℚ) * pow2 (-1074))
    (a : ℚ) (ha : a ∈ qs) :
    gridIndex (newSet (sortNumeric (qs.map Number.fin))) (Number.fin a)
      = ((newSet (qs.insertionSort (fun x y => x ≤ y))).filter
          (fun c => decide (c ≤ a - (1 - pow2 (-54))))).length + 1 := by
  have hτ : (0 : ℚ) < 1 - pow2 (-54) := by
    have : pow2 (-54) = 1 / 2 ^ 54 := by
      rw [pow2_eq_zpow]
      norm_num
    rw [this]
    norm_num
  unfold gridIndex
  rw [sortNumeric_fin qs hg, newSet_map Number.fin fin_injective, findIndex_map,
    findIndex_congr _ (fun c => decide (|c - a| < 1 - pow2 (-54))) _
      (fun c _ => near_fin c a),
    findIndex_near a _ hτ _ (newSet_sort_pairwise qs) ((mem_newSet_sort qs a).2 ha)]
  rfl


theorem add_grid (u w : Number) (r : ℚ) (h : Number.add u w = Number.fin r) :
    ∃ k : ℤ, r = (k : ℚ) * pow2 (-1074) := by
  cases u with
  | fin a =>
    cases w with
    | fin b => exact round64_grid (a + b) r h
    | inf s => simp [Number.add] at h
    | nan => simp [Number.add] at h
  | inf s =>
    cases w with
    | fin b => simp [Number.add] at h
    | inf t =>
      simp only [Number.add] at h
      split_ifs at h
    | nan => simp [Number.add] at h
  | nan => cases w <;> simp [Number.add] at h

theorem isFinite_eq (v : Number) (h : v.isFinite = true) : v = Number.fin v.toRat := by
  cases v with
  | fin a => rfl
  | inf s => simp [Number.isFinite] at h
  | nan => simp [Number.isFinite] at h

/-- A finite centre is a binary64 value. -/
theorem positions_grid (nodes : List Node) (r : Position) (hr : r ∈ positions nodes) :
    (∀ a, r.x = Number.fin a → ∃ k : ℤ, a = (k : ℚ) * pow2 (-1074)) ∧
    (∀ a, r.y = Number.fin a → ∃ k : ℤ, a = (k : ℚ) * pow2 (-1074)) := by
  unfold positions at hr
  obtain ⟨n, -, hn⟩ := List.mem_filterMap.1 hr
  unfold toPosition at hn
  cases hf : n.file with
  | none => simp [hf] at hn
  | some f =>
    simp only [hf] at hn
    split_ifs at hn
    simp only [Option.some.injEq] at hn
    subst hn
    exact ⟨fun a h => add_grid _ _ a h, fun a h => add_grid _ _ a h⟩

/-- The index of a finite coordinate among finite binary64 coordinates, as a count over
the rationals they stand for. -/
theorem index_eq (l : List Number) (hfin : ∀ v ∈ l, v.isFinite = true)
    (hgrid : ∀ v ∈ l, ∀ a, v = Number.fin a → ∃ k : ℤ, a = (k : ℚ) * pow2 (-1074))
    (v : Number) (hv : v ∈ l) :
    gridIndex (newSet (sortNumeric l)) v
      = ((newSet ((l.map Number.toRat).insertionSort (fun x y => x ≤ y))).filter
          (fun c => decide (c ≤ v.toRat - (1 - pow2 (-54))))).length + 1 := by
  have hl : l = (l.map Number.toRat).map Number.fin := by
    rw [List.map_map]
    conv_lhs => rw [← List.map_id l]
    apply List.map_congr_left
    intro u hu
    exact isFinite_eq u (hfin u hu)
  have hg : ∀ a ∈ l.map Number.toRat, ∃ k : ℤ, a = (k : ℚ) * pow2 (-1074) := by
    intro a ha
    obtain ⟨u, hu, rfl⟩ := List.mem_map.1 ha
    exact hgrid u hu u.toRat (isFinite_eq u (hfin u hu))
  have hv' : v.toRat ∈ l.map Number.toRat := List.mem_map_of_mem _ hv
  have e := gridIndex_fin (l.map Number.toRat) hg v.toRat hv'
  rw [← hl, ← isFinite_eq v (hfin v hv)] at e
  exact e

theorem mem_distinct (l : List Number) (c : ℚ) :
    c ∈ newSet ((l.map Number.toRat).insertionSort (fun x y => x ≤ y))
      ↔ ∃ v ∈ l, v.toRat = c := by
  rw [mem_newSet_sort, List.mem_map]

/-- The column of an element of `imagePositions` when every centre `x` is finite. -/
theorem column_eq (nodes : List Node) (p : ImagePosition)
    (hfin : ∀ r ∈ positions nodes, r.x.isFinite = true)
    (hp : p ∈ imagePositions (positions nodes)) :
    p.column = ((newSet ((((positions nodes).map (fun r => r.x)).map
        Number.toRat).insertionSort (fun x y => x ≤ y))).filter
          (fun c => decide (c ≤ p.x.toRat - (1 - pow2 (-54))))).length + 1 ∧
      p.x ∈ (positions nodes).map (fun r => r.x) := by
  unfold imagePositions at hp
  obtain ⟨pos, hpos, rfl⟩ := List.mem_map.1 hp
  have hm : pos.x ∈ (positions nodes).map (fun r => r.x) := List.mem_map_of_mem _ hpos
  refine ⟨?_, hm⟩
  apply index_eq _ _ _ _ hm
  · intro v hv
    obtain ⟨r, hr, rfl⟩ := List.mem_map.1 hv
    exact hfin r hr
  · intro v hv a ha
    obtain ⟨r, hr, rfl⟩ := List.mem_map.1 hv
    exact (positions_grid nodes r hr).1 a ha

/-- The line of an element of `imagePositions` when every centre `y` is finite. -/
theorem line_eq (nodes : List Node) (p : ImagePosition)
    (hfin : ∀ r ∈ positions nodes, r.y.isFinite = true)
    (hp : p ∈ imagePositions (positions nodes)) :
    p.line = ((newSet ((((positions nodes).map (fun r => r.y)).map
        Number.toRat).insertionSort (fun x y => x ≤ y))).filter
          (fun c => decide (c ≤ p.y.toRat - (1 - pow2 (-54))))).length + 1 ∧
      p.y ∈ (positions nodes).map (fun r => r.y) := by
  unfold imagePositions at hp
  obtain ⟨pos, hpos, rfl⟩ := List.mem_map.1 hp
  have hm : pos.y ∈ (positions nodes).map (fun r => r.y) := List.mem_map_of_mem _ hpos
  refine ⟨?_, hm⟩
  apply index_eq _ _ _ _ hm
  · intro v hv
    obtain ⟨r, hr, rfl⟩ := List.mem_map.1 hv
    exact hfin r hr
  · intro v hv a ha
    obtain ⟨r, hr, rfl⟩ := List.mem_map.1 hv
    exact (positions_grid nodes r hr).2 a ha

theorem tolerance_bounds : (0 : ℚ) < 1 - pow2 (-54) ∧ 1 - pow2 (-54) < 1 ∧
    1 - pow2 (-54) = 1 - 1 / 2 ^ 54 := by
  have : pow2 (-54) = 1 / 2 ^ 54 := by
    rw [pow2_eq_zpow]
    norm_num
  rw [this]
  norm_num

/-- Indices differ when the coordinates are at least the tolerance apart. -/
theorem count_ne_of_far (l : List ℚ) (a b t : ℚ) (ht : 0 < t) (ha : a ∈ l) (hb : b ∈ l)
    (h : t ≤ |a - b|) :
    (l.filter (fun c => decide (c ≤ a - t))).length + 1
      ≠ (l.filter (fun c => decide (c ≤ b - t))).length + 1 := by
  rcases le_abs.1 h with h1 | h1
  · have := filter_le_length_lt l (b - t) (a - t) b hb (by linarith) (by linarith)
    omega
  · have := filter_le_length_lt l (a - t) (b - t) a ha (by linarith) (by linarith)
    omega

theorem count_lt_eq_card (l m : List ℚ) (v : ℚ) (hn : l.Nodup) (hm : ∀ x, x ∈ l ↔ x ∈ m) :
    (l.filter (fun c => decide (c < v))).length
      = (m.toFinset.filter (fun c => c < v)).card := by
  have e : l.toFinset = m.toFinset := by
    ext x
    simp [hm x]
  rw [← List.toFinset_card_of_nodup (hn.filter _), List.toFinset_filter, e]
  congr 1
  ext x
  simp

theorem rank_of_separated (l m : List ℚ) (v t : ℚ) (ht : 0 < t) (ht1 : t ≤ 1)
    (hp : l.Pairwise (fun a b => a < b))
    (hm : ∀ x, x ∈ l ↔ x ∈ m) (hsep : ∀ c ∈ m, c ≠ v → 1 ≤ |c - v|) :
    (l.filter (fun c => decide (c ≤ v - t))).length + 1
      = 1 + (m.toFinset.filter (fun c => c < v)).card := by
  have e : l.filter (fun c => decide (c ≤ v - t)) = l.filter (fun c => decide (c < v)) := by
    apply List.filter_congr
    intro c hc
    have hcm : c ∈ m := (hm c).1 hc
    by_cases h : c < v
    · have h1 := hsep c hcm (ne_of_lt h)
      have h2 : c ≤ v - t := by
        rcases le_abs.1 h1 with h3 | h3 <;> linarith
      simp [h, h2]
    · have h2 : ¬ c ≤ v - t := by
        intro h3
        apply h
        linarith
      simp [h, h2]
  rw [e, count_lt_eq_card l m v hp.nodup hm, add_comm]

theorem count_eq_iff_window (l : List ℚ) (a b t : ℚ) (hab : a ≤ b) :
    (l.filter (fun c => decide (c ≤ a - t))).length + 1
        = (l.filter (fun c => decide (c ≤ b - t))).length + 1
      ↔ ∀ c ∈ l, ¬ (a - t < c ∧ c ≤ b - t) := by
  constructor
  · intro h c hc hw
    have := filter_le_length_lt l (a - t) (b - t) c hc hw.1 hw.2
    omega
  · intro h
    have e : l.filter (fun c => decide (c ≤ a - t)) = l.filter (fun c => decide (c ≤ b - t)) := by
      apply List.filter_congr
      intro c hc
      have hw := h c hc
      by_cases h1 : c ≤ a - t
      · have h2 : c ≤ b - t := by linarith
        simp [h1, h2]
      · have h2 : ¬ c ≤ b - t := fun h3 => hw ⟨lt_of_not_le h1, h3⟩
        simp [h1, h2]
    rw [e]

theorem index_eq_iff_window (l : List ℚ) (a b t : ℚ) :
    (l.filter (fun c => decide (c ≤ a - t))).length + 1
        = (l.filter (fun c => decide (c ≤ b - t))).length + 1
      ↔ ∀ c ∈ l, ¬ (min a b - t < c ∧ c ≤ max a b - t) := by
  rcases le_total a b with h | h
  · rw [min_eq_left h, max_eq_right h]
    exact count_eq_iff_window l a b t h
  · rw [min_eq_right h, max_eq_left h, eq_comm]
    exact count_eq_iff_window l b a t h


/-! ## Facts about `split` and the image test -/

theorem split_ne_nil (sep : Char) (s : Str) : split sep s ≠ [] := by
  cases s with
  | nil => simp [split]
  | cons c cs =>
    unfold split
    split_ifs
    · simp
    · split <;> simp

theorem split_of_not_mem (sep : Char) : ∀ s : Str, sep ∉ s → split sep s = [s] := by
  intro s
  induction s with
  | nil => intro _; rfl
  | cons c cs ih =>
    intro h
    have hc : c ≠ sep := fun e => h (e ▸ List.mem_cons_self _ _)
    have hcs : sep ∉ cs := fun e => h (List.mem_cons_of_mem _ e)
    simp [split, hc, ih hcs]

theorem getLast?_cons_of_ne_nil {α : Type} (a : α) (l : List α) (h : l ≠ []) :
    (a :: l).getLast? = l.getLast? := by
  cases l with
  | nil => exact absurd rfl h
  | cons b t => exact List.getLast?_cons_cons

/-- The last piece of `split` when the separator occurs: what follows its last
occurrence. -/
theorem pop_split_of_mem (sep : Char) :
    ∀ s : Str, sep ∈ s →
      ∃ a b, s = a ++ sep :: b ∧ sep ∉ b ∧ pop (split sep s) = some b ∧
        2 ≤ (split sep s).length := by
  intro s
  induction s with
  | nil => intro h; simp at h
  | cons c cs ih =>
    intro h
    by_cases hcs : sep ∈ cs
    · obtain ⟨a, b, hab, hb, hpop, hlen⟩ := ih hcs
      refine ⟨c :: a, b, by rw [hab]; rfl, hb, ?_, ?_⟩
      · by_cases hc : c = sep
        · simp only [split, hc, if_true]
          unfold pop at hpop ⊢
          rw [getLast?_cons_of_ne_nil _ _ (split_ne_nil sep cs)]
          exact hpop
        · simp only [split, hc, if_false]
          cases hsp : split sep cs with
          | nil => exact absurd hsp (split_ne_nil sep cs)
          | cons seg segs =>
            rw [hsp] at hpop hlen
            have hne : segs ≠ [] := by
              intro e
              rw [e] at hlen
              simp at hlen
            unfold pop at hpop ⊢
            simp only []
            rw [getLast?_cons_of_ne_nil _ _ hne] at hpop ⊢
            exact hpop
      · by_cases hc : c = sep
        · simp only [split, hc, if_true, List.length_cons]
          omega
        · simp only [split, hc, if_false]
          cases hsp : split sep cs with
          | nil => exact absurd hsp (split_ne_nil sep cs)
          | cons seg segs =>
            rw [hsp] at hlen
            simpa using hlen
    · have hc : c = sep := by
        rcases List.mem_cons.1 h with e | e
        · exact e.symm
        · exact absurd e hcs
      refine ⟨[], cs, by rw [hc]; rfl, hcs, ?_, ?_⟩
      · simp [split, hc, split_of_not_mem sep cs hcs, pop]
      · simp [split, hc, split_of_not_mem sep cs hcs]

/-- What follows the last separator holds every tail of the string that is free of
the separator. -/
theorem tail_of_last_sep (sep : Char) (a b t u : Str) (h : a ++ sep :: b = t ++ u)
    (hu : sep ∉ u) : ∃ v, b = v ++ u := by
  rcases List.append_eq_append_iff.1 h with ⟨a', _, h2⟩ | ⟨c', _, h2⟩
  · cases a' with
    | nil =>
      exfalso
      apply hu
      rw [← show sep :: b = u from h2]
      exact List.mem_cons_self _ _
    | cons d a'' =>
      simp only [List.cons_append, List.cons.injEq] at h2
      exact ⟨a'', h2.2⟩
  · exfalso
    apply hu
    rw [h2]
    simp

theorem last_sep_unique (sep : Char) (a b a' b' : Str) (h : a ++ sep :: b = a' ++ sep :: b')
    (hb : sep ∉ b) (hb' : sep ∉ b') : b = b' := by
  obtain ⟨v, hv⟩ := tail_of_last_sep sep a b (a' ++ [sep]) b' (by simpa using h) hb'
  obtain ⟨v', hv'⟩ := tail_of_last_sep sep a' b' (a ++ [sep]) b (by simpa using h.symm) hb
  have hl : v.length = 0 := by
    have h1 := congrArg List.length hv
    have h2 := congrArg List.length hv'
    simp only [List.length_append] at h1 h2
    omega
  rw [List.length_eq_zero] at hl
  rw [hv, hl]
  rfl

theorem toLower_eq_dot (c : Char) (h : c.toLower = '.') : c = '.' := by
  by_cases hr : c.toNat ≥ 65 ∧ c.toNat ≤ 90
  · exfalso
    have hc : c = Char.ofNat c.toNat := (Char.ofNat_toNat c).symm
    obtain ⟨h1, h2⟩ := hr
    generalize c.toNat = n at hc h1 h2
    subst hc
    interval_cases n <;> revert h <;> decide
  · unfold Char.toLower at h
    simpa [hr] using h


theorem dot_suffix_decompose (f e : Str) (h : ('.' :: e) <:+ f.map Char.toLower)
    (h1 : '.' ∉ e) (h2 : '/' ∉ e) :
    ∃ t ext, f = t ++ '.' :: ext ∧ '.' ∉ ext ∧ '/' ∉ ext := by
  obtain ⟨t0, ht0⟩ := h
  obtain ⟨l1, l2, hf, -, hl2⟩ := List.map_eq_append_iff.1 ht0.symm
  obtain ⟨c, ext, hl2e, hc, hext⟩ := List.map_eq_cons_iff.1 hl2
  have hcd : c = '.' := toLower_eq_dot c hc
  refine ⟨l1, ext, by rw [hf, hl2e, hcd], ?_, ?_⟩
  · intro hm
    apply h1
    rw [← hext]
    exact List.mem_map.2 ⟨'.', hm, by decide⟩
  · intro hm
    apply h2
    rw [← hext]
    exact List.mem_map.2 ⟨'/', hm, by decide⟩

/-- A path that passes the image test ends in a dot and an extension free of dots
and slashes. -/
theorem matchesImage_decompose (f : Str) (h : matchesImage f = true) :
    ∃ t ext, f = t ++ '.' :: ext ∧ '.' ∉ ext ∧ '/' ∉ ext := by
  unfold matchesImage imageSuffixes at h
  simp only [List.any_cons, List.any_nil, Bool.or_false, Bool.or_eq_true,
    decide_eq_true_eq] at h
  rcases h with h | h | h | h
  · exact dot_suffix_decompose f "png".toList h (by decide) (by decide)
  · exact dot_suffix_decompose f "jpg".toList h (by decide) (by decide)
  · exact dot_suffix_decompose f "jpeg".toList h (by decide) (by decide)
  · exact dot_suffix_decompose f "gif".toList h (by decide) (by decide)

/-- The extension `split('.').pop()` takes from a name: what follows its last dot. -/
theorem extension_of (stem ext : Str) (h : '.' ∉ ext) :
    pop (split '.' (stem ++ '.' :: ext)) = some ext := by
  obtain ⟨a, b, hab, hb, hpop, -⟩ :=
    pop_split_of_mem '.' (stem ++ '.' :: ext) (by simp)
  rw [hpop, last_sep_unique '.' a b stem ext hab.symm hb h]

/-- The file name `split('/').pop()` takes from a path that ends in `.ext`. -/
theorem fileName_of (t ext : Str) (h : '/' ∉ ext) :
    ∃ dirPart stem, t ++ '.' :: ext = dirPart ++ (stem ++ '.' :: ext) ∧
      (dirPart = [] ∨ dirPart.getLast? = some '/') ∧ '/' ∉ stem ∧
      pop (split '/' (t ++ '.' :: ext)) = some (stem ++ '.' :: ext) := by
  have hu : '/' ∉ '.' :: ext := by
    intro hm
    rcases List.mem_cons.1 hm with e | e
    · exact absurd e (by decide)
    · exact h e
  by_cases hs : '/' ∈ t ++ '.' :: ext
  · obtain ⟨a, b, hab, hb, hpop, -⟩ := pop_split_of_mem '/' _ hs
    obtain ⟨v, hv⟩ := tail_of_last_sep '/' a b t ('.' :: ext) hab.symm hu
    refine ⟨a ++ ['/'], v, ?_, Or.inr (by simp), ?_, ?_⟩
    · rw [hab, hv]; simp
    · intro hm
      apply hb
      rw [hv]
      exact List.mem_append_left _ hm
    · rw [hpop, hv]
  · refine ⟨[], t, rfl, Or.inl rfl, ?_, ?_⟩
    · intro hm
      exact hs (List.mem_append_left _ hm)
    · rw [split_of_not_mem '/' _ hs]
      rfl

/-- The target path of an image: directory of the canvas, settings value, `L`, line,
`C`, column, dot, and what follows the last dot of the last path segment. -/
theorem newPathOf_of_matches (pfx dir : Str) (p : ImagePosition)
    (h : matchesImage p.file = true) :
    ∃ dirPart stem ext : Str,
      p.file = dirPart ++ (stem ++ '.' :: ext) ∧
      (dirPart = [] ∨ dirPart.getLast? = some '/') ∧
      '/' ∉ stem ∧ '/' ∉ ext ∧ '.' ∉ ext ∧
      newPathOf pfx dir p
        = some (dir ++ (pfx ++ ("L".toList ++ (decimal p.line ++ ("C".toList ++
            (decimal p.column ++ (".".toList ++ ext))))))) := by
  obtain ⟨t, ext, hf, hdot, hslash⟩ := matchesImage_decompose p.file h
  obtain ⟨dirPart, stem, hd, hdir, hstem, hpop⟩ := fileName_of t ext hslash
  refine ⟨dirPart, stem, ext, by rw [hf, hd], hdir, hstem, hslash, hdot, ?_⟩
  unfold newPathOf
  rw [hf, hpop]
  simp [extension_of stem ext hdot]

theorem isImageNode_file (n : Node) (h : isImageNode n = true) :
    ∃ f, n.file = some f ∧ f.isEmpty = false ∧ matchesImage f = true ∧
      n.type = "file".toList := by
  unfold isImageNode at h
  cases hf : n.file with
  | none => simp [hf] at h
  | some f =>
    simp only [hf, Bool.and_eq_true, decide_eq_true_eq, Bool.not_eq_true'] at h
    exact ⟨f, rfl, h.2.1, h.2.2, h.1⟩

theorem orDefault_hundred (v : Option Number) :
    orDefault v (Number.fin 100)
      = (match v with
         | none => Number.fin 100
         | some w => if w = Number.fin 0 ∨ w = Number.nan then Number.fin 100 else w) := by
  cases v with
  | none => rfl
  | some w =>
    cases w with
    | fin a =>
      by_cases h : a = 0
      · simp [orDefault, h]
      · simp [orDefault, h]
    | inf s => simp [orDefault]
    | nan => simp [orDefault]

/-- No qualifying node is lost on the way to `positions`: they correspond one to
one, in order, with the node's id, file and centre. -/
theorem positions_filter (nodes : List Node) :
    (positions (nodes.filter isImageNode)).map (fun p => (p.id, some p.file, p.x, p.y))
      = (nodes.filter isImageNode).map
          (fun n => (n.id, n.file, centre n.x n.width, centre n.y n.height)) := by
  induction nodes with
  | nil => rfl
  | cons n t ih =>
    by_cases hn : isImageNode n = true
    · obtain ⟨f, hf, hne, -, -⟩ := isImageNode_file n hn
      rw [List.filter_cons_of_pos hn]
      unfold positions at ih ⊢
      have hp : toPosition n = some
          { id := n.id, x := centre n.x n.width, y := centre n.y n.height, file := f } := by
        simp [toPosition, hf, hne, centre, orDefault_hundred]
      rw [List.filterMap_cons_some hp, List.map_cons, List.map_cons, ih, hf]
    · rw [List.filter_cons_of_neg hn]
      exact ih

theorem matches_of_mem_positions (nodes : List Node) (p : Position)
    (hp : p ∈ positions (nodes.filter isImageNode)) : matchesImage p.file = true := by
  unfold positions at hp
  obtain ⟨n, hn, hpn⟩ := List.mem_filterMap.1 hp
  obtain ⟨f, hf, hne, hm, -⟩ := isImageNode_file n (List.mem_filter.1 hn).2
  simp only [toPosition, hf, hne, Bool.false_eq_true, if_false, Option.some.injEq] at hpn
  rw [← hpn]
  exact hm

theorem matches_of_mem_imagePositions (nodes : List Node) (p : ImagePosition)
    (hp : p ∈ imagePositions (positions (nodes.filter isImageNode))) :
    matchesImage p.file = true := by
  unfold imagePositions at hp
  obtain ⟨q, hq, rfl⟩ := List.mem_map.1 hp
  exact matches_of_mem_positions nodes q hq

theorem imagePositions_map (ps : List Position) :
    (imagePositions ps).map (fun p => (p.id, some p.file, p.x, p.y))
      = ps.map (fun p => (p.id, some p.file, p.x, p.y)) := by
  unfold imagePositions
  rw [List.map_map]
  rfl


/-! ## Lines and columns -/

theorem positions_centres (nodes : List Node) :
    (positions (nodes.filter isImageNode)).map (fun a => (a.x, a.y))
      = (nodes.filter isImageNode).map (fun n => (centre n.x n.width, centre n.y n.height)) := by
  have h := congrArg (List.map (fun t : Str × Option Str × Number × Number => t.2.2))
    (positions_filter nodes)
  simp only [List.map_map] at h
  exact h

/-- C2, as stated, fails.  For `x` written 13.6 and 14.6 the centres `x + 100 / 2` are
exactly 1 apart, and the code, which rounds each sum, finds them less than 1 apart and
gives both nodes column 1.  For `x` written 1e999 and -1e999 both nodes get column 0.
With `width` 0 the code centres at `x + 50`, so a node at `x = 0` comes after a node
at `x = -10` without `width`. -/
theorem C2_rank_counterexample :
    (∃ a b : ℚ, num (68 / 5) = Number.fin a ∧ num (73 / 5) = Number.fin b ∧
      (b + 100 / 2) - (a + 100 / 2) = 1) ∧
    (imagePositions (positions (roundedNodes.filter isImageNode))).map (fun p => p.column)
      = [1, 1] ∧
    (imagePositions (positions (infiniteNodes.filter isImageNode))).map (fun p => p.column)
      = [0, 0] ∧
    (imagePositions (positions (zeroWidthNodes.filter isImageNode))).map (fun p => p.column)
      = [2, 1] :=
  ⟨⟨7656119366529843 / 562949953421312, 8219069319951155 / 562949953421312,
      by decide!, by decide!, by decide!⟩,
    by decide!, by decide!, by decide!⟩

/-- C2, amended: the centres are the binary64 values `x + w / 2` and `y + h / 2`, with
100 for a width or height that is absent or zero.  In a list of qualifying nodes whose
centres are all finite, whose distinct centre x are at least 1 apart and whose distinct
centre y are at least 1 apart, the column of every node is 1 plus the number of distinct
centre x strictly below its own, and its line is 1 plus the number of distinct centre y
strictly below its own. -/
theorem C2_line_and_column_are_ranks (nodes : List Node)
    (hfin : ∀ a ∈ positions (nodes.filter isImageNode),
      a.x.isFinite = true ∧ a.y.isFinite = true)
    (hx : ∀ a ∈ positions (nodes.filter isImageNode),
      ∀ b ∈ positions (nodes.filter isImageNode),
        a.x ≠ b.x → 1 ≤ |a.x.toRat - b.x.toRat|)
    (hy : ∀ a ∈ positions (nodes.filter isImageNode),
      ∀ b ∈ positions (nodes.filter isImageNode),
        a.y ≠ b.y → 1 ≤ |a.y.toRat - b.y.toRat|) :
    (positions (nodes.filter isImageNode)).map (fun a => (a.x, a.y))
      = (nodes.filter isImageNode).map (fun n => (centre n.x n.width, centre n.y n.height)) ∧
    ∀ p ∈ imagePositions (positions (nodes.filter isImageNode)),
      p.column = 1 + ((((positions (nodes.filter isImageNode)).map
          (fun a => a.x.toRat)).toFinset).filter (fun c => c < p.x.toRat)).card ∧
      p.line = 1 + ((((positions (nodes.filter isImageNode)).map
          (fun a => a.y.toRat)).toFinset).filter (fun c => c < p.y.toRat)).card := by
  refine ⟨positions_centres nodes, ?_⟩
  intro p hp
  obtain ⟨ht0, ht1, -⟩ := tolerance_bounds
  obtain ⟨hcol, hxm⟩ := column_eq _ p (fun r hr => (hfin r hr).1) hp
  obtain ⟨hlin, hym⟩ := line_eq _ p (fun r hr => (hfin r hr).2) hp
  obtain ⟨px, hpx, hpxe⟩ := List.mem_map.1 hxm
  obtain ⟨py, hpy, hpye⟩ := List.mem_map.1 hym
  constructor
  · rw [hcol]
    apply rank_of_separated _ _ _ _ ht0 (le_of_lt ht1) (newSet_sort_pairwise _)
    · intro v
      rw [mem_newSet_sort, List.map_map]
      rfl
    · intro c hc hne
      obtain ⟨a, ha, rfl⟩ := List.mem_map.1 hc
      rw [← hpxe]
      apply hx a ha px hpx
      intro e
      apply hne
      rw [← hpxe, e]
  · rw [hlin]
    apply rank_of_separated _ _ _ _ ht0 (le_of_lt ht1) (newSet_sort_pairwise _)
    · intro v
      rw [mem_newSet_sort, List.map_map]
      rfl
    · intro c hc hne
      obtain ⟨a, ha, rfl⟩ := List.mem_map.1 hc
      rw [← hpye]
      apply hy a ha py hpy
      intro e
      apply hne
      rw [← hpye, e]

/-- C2 on the four images with centres (0,0), (0,50), (100,0), (100,50): the ranks, and
the names they get with the settings value "P_" at the vault root. -/
theorem C2_line_and_column_are_ranks_witness :
    (positions (gridNodes.filter isImageNode)).map (fun a => (a.x, a.y))
      = [(Number.fin 0, Number.fin 0), (Number.fin 0, Number.fin 50),
         (Number.fin 100, Number.fin 0), (Number.fin 100, Number.fin 50)] ∧
    (imagePositions (positions (gridNodes.filter isImageNode))).map
        (newPathOf "P_".toList (canvasDir []))
      = [some "P_L1C1.png".toList, some "P_L2C1.png".toList,
         some "P_L1C2.png".toList, some "P_L2C2.png".toList] ∧
    ∀ p ∈ imagePositions (positions (gridNodes.filter isImageNode)),
      p.column = 1 + ((((positions (gridNodes.filter isImageNode)).map
          (fun a => a.x.toRat)).toFinset).filter (fun c => c < p.x.toRat)).card ∧
      p.line = 1 + ((((positions (gridNodes.filter isImageNode)).map
          (fun a => a.y.toRat)).toFinset).filter (fun c => c < p.y.toRat)).card :=
  ⟨by decide!, by decide!,
    (C2_line_and_column_are_ranks gridNodes (by decide!) (by decide!) (by decide!)).2⟩

/-- C7, as stated, fails.  For `x` written 13.6 and 14.6 the centres `x + 100 / 2` are
exactly 1 apart, and the code, which rounds each sum, gives both nodes column 1.  For
`x` written 1e999 and -1e999 the centres are `Infinity` and `-Infinity`, no test of
line 101 holds, and both nodes get column 0. -/
theorem C7_far_centres_counterexample :
    (∃ a b : ℚ, num (68 / 5) = Number.fin a ∧ num (73 / 5) = Number.fin b ∧
      1 ≤ |(a + 100 / 2) - (b + 100 / 2)|) ∧
    (imagePositions (positions (roundedNodes.filter isImageNode))).map (fun p => p.column)
      = [1, 1] ∧
    (positions (infiniteNodes.filter isImageNode)).map (fun p => p.x)
      = [Number.inf false, Number.inf true] ∧
    (imagePositions (positions (infiniteNodes.filter isImageNode))).map (fun p => p.column)
      = [0, 0] :=
  ⟨⟨7656119366529843 / 562949953421312, 8219069319951155 / 562949953421312,
      by decide!, by decide!, by decide!⟩,
    by decide!, by decide!, by decide!⟩

/-- C7, amended: in a list of qualifying nodes whose centres, as the code computes them
in binary64, are all finite, two nodes whose centre x are 1 or more apart get different
columns, and two nodes whose centre y are 1 or more apart get different lines, whatever
else the list holds. -/
theorem C7_far_centres_get_different_indices (nodes : List Node) (p q : ImagePosition)
    (hfin : ∀ r ∈ positions (nodes.filter isImageNode),
      r.x.isFinite = true ∧ r.y.isFinite = true)
    (hp : p ∈ imagePositions (positions (nodes.filter isImageNode)))
    (hq : q ∈ imagePositions (positions (nodes.filter isImageNode))) :
    (1 ≤ |p.x.toRat - q.x.toRat| → p.column ≠ q.column) ∧
    (1 ≤ |p.y.toRat - q.y.toRat| → p.line ≠ q.line) := by
  obtain ⟨ht0, ht1, -⟩ := tolerance_bounds
  obtain ⟨hpc, hpx⟩ := column_eq _ p (fun r hr => (hfin r hr).1) hp
  obtain ⟨hqc, hqx⟩ := column_eq _ q (fun r hr => (hfin r hr).1) hq
  obtain ⟨hpl, hpy⟩ := line_eq _ p (fun r hr => (hfin r hr).2) hp
  obtain ⟨hql, hqy⟩ := line_eq _ q (fun r hr => (hfin r hr).2) hq
  constructor
  · intro h
    rw [hpc, hqc]
    apply count_ne_of_far _ _ _ _ ht0
    · exact (mem_newSet_sort _ _).2 (List.mem_map_of_mem _ hpx)
    · exact (mem_newSet_sort _ _).2 (List.mem_map_of_mem _ hqx)
    · linarith
  · intro h
    rw [hpl, hql]
    apply count_ne_of_far _ _ _ _ ht0
    · exact (mem_newSet_sort _ _).2 (List.mem_map_of_mem _ hpy)
    · exact (mem_newSet_sort _ _).2 (List.mem_map_of_mem _ hqy)
    · linarith

/-- C7 on the chain 50, 50.5, 51: the first and the third image are exactly 1 apart and
get the columns 1 and 2. -/
theorem C7_far_centres_get_different_indices_witness :
    (⟨"n1".toList, Number.fin 50, Number.fin 50, "a.png".toList, 1, 1⟩ : ImagePosition)
        ∈ imagePositions (positions (chainNodes.filter isImageNode)) ∧
      (⟨"n3".toList, Number.fin 51, Number.fin 50, "c.png".toList, 1, 2⟩ : ImagePosition)
        ∈ imagePositions (positions (chainNodes.filter isImageNode)) ∧
      1 ≤ |(Number.fin 50).toRat - (Number.fin 51).toRat| ∧ (1 : Nat) ≠ 2 :=
  ⟨by decide!, by decide!, by decide!,
    (C7_far_centres_get_different_indices chainNodes
      ⟨"n1".toList, Number.fin 50, Number.fin 50, "a.png".toList, 1, 1⟩
      ⟨"n3".toList, Number.fin 51, Number.fin 50, "c.png".toList, 1, 2⟩
      (by decide!) (by decide!) (by decide!)).1 (by decide!)⟩

/-- C6, as stated, fails: in the chain with centre x 50, 50.5 and 51 the second and the
third image are 0.5 apart and get the columns 1 and 2. -/
theorem C6_close_centres_counterexample :
    (⟨"n2".toList, Number.fin (101 / 2), Number.fin 50, "b.png".toList, 1, 1⟩ : ImagePosition)
        ∈ imagePositions (positions (chainNodes.filter isImageNode)) ∧
      (⟨"n3".toList, Number.fin 51, Number.fin 50, "c.png".toList, 1, 2⟩ : ImagePosition)
        ∈ imagePositions (positions (chainNodes.filter isImageNode)) ∧
      |(101 / 2 : ℚ) - 51| < 1 ∧ (1 : Nat) ≠ 2 := by
  decide!

/-- C6, amended: in a list of qualifying nodes whose centres, as the code computes them
in binary64, are all finite, two nodes whose centre x are less than 1 apart get the same
column exactly when no node of the list has its centre x above the smaller of the two
centres minus `1 - 2 ^ (-54)` and at or below the larger one minus `1 - 2 ^ (-54)`; the
same holds for centre y and lines.  The bound is `1 - 2 ^ (-54)` because line 101 rounds
the difference before it compares it with 1. -/
theorem C6_close_centres_share_index (nodes : List Node) (p q : ImagePosition)
    (hfin : ∀ r ∈ positions (nodes.filter isImageNode),
      r.x.isFinite = true ∧ r.y.isFinite = true)
    (hp : p ∈ imagePositions (positions (nodes.filter isImageNode)))
    (hq : q ∈ imagePositions (positions (nodes.filter isImageNode))) :
    (|p.x.toRat - q.x.toRat| < 1 →
      (p.column = q.column ↔
        ∀ r ∈ positions (nodes.filter isImageNode),
          ¬ (min p.x.toRat q.x.toRat - (1 - 1 / 2 ^ 54) < r.x.toRat ∧
            r.x.toRat ≤ max p.x.toRat q.x.toRat - (1 - 1 / 2 ^ 54)))) ∧
    (|p.y.toRat - q.y.toRat| < 1 →
      (p.line = q.line ↔
        ∀ r ∈ positions (nodes.filter isImageNode),
          ¬ (min p.y.toRat q.y.toRat - (1 - 1 / 2 ^ 54) < r.y.toRat ∧
            r.y.toRat ≤ max p.y.toRat q.y.toRat - (1 - 1 / 2 ^ 54)))) := by
  obtain ⟨-, -, hτ⟩ := tolerance_bounds
  obtain ⟨hpc, -⟩ := column_eq _ p (fun r hr => (hfin r hr).1) hp
  obtain ⟨hqc, -⟩ := column_eq _ q (fun r hr => (hfin r hr).1) hq
  obtain ⟨hpl, -⟩ := line_eq _ p (fun r hr => (hfin r hr).2) hp
  obtain ⟨hql, -⟩ := line_eq _ q (fun r hr => (hfin r hr).2) hq
  rw [hτ] at hpc hqc hpl hql
  constructor
  · intro _
    rw [hpc, hqc, index_eq_iff_window]
    constructor
    · intro h r hr
      apply h r.x.toRat
      rw [mem_newSet_sort, List.map_map]
      exact List.mem_map_of_mem _ hr
    · intro h c hc
      rw [mem_newSet_sort, List.map_map] at hc
      obtain ⟨r, hr, rfl⟩ := List.mem_map.1 hc
      exact h r hr
  · intro _
    rw [hpl, hql, index_eq_iff_window]
    constructor
    · intro h r hr
      apply h r.y.toRat
      rw [mem_newSet_sort, List.map_map]
      exact List.mem_map_of_mem _ hr
    · intro h c hc
      rw [mem_newSet_sort, List.map_map] at hc
      obtain ⟨r, hr, rfl⟩ := List.mem_map.1 hc
      exact h r hr

/-- C6 on two images alone whose `x` and `y` are written 0 and 0.999: no centre lies in
the window, and both get column 1. -/
theorem C6_close_centres_share_index_witness :
    (⟨"n1".toList, Number.fin 50, Number.fin 50, "a.png".toList, 1, 1⟩ : ImagePosition)
        ∈ imagePositions (positions (closeNodes.filter isImageNode)) ∧
      (⟨"n2".toList, closeCentre, closeCentre, "b.png".toList, 1, 1⟩ : ImagePosition)
        ∈ imagePositions (positions (closeNodes.filter isImageNode)) ∧
      |(Number.fin 50).toRat - closeCentre.toRat| < 1 ∧
      (∀ r ∈ positions (closeNodes.filter isImageNode),
        ¬ (min (Number.fin 50).toRat closeCentre.toRat - (1 - 1 / 2 ^ 54) < r.x.toRat ∧
          r.x.toRat ≤ max (Number.fin 50).toRat closeCentre.toRat - (1 - 1 / 2 ^ 54))) ∧
      ((1 : Nat) = 1 ↔
        ∀ r ∈ positions (closeNodes.filter isImageNode),
          ¬ (min (Number.fin 50).toRat closeCentre.toRat - (1 - 1 / 2 ^ 54) < r.x.toRat ∧
            r.x.toRat ≤ max (Number.fin 50).toRat closeCentre.toRat - (1 - 1 / 2 ^ 54))) :=
  ⟨by decide!, by decide!, by decide!, by decide!,
    (C6_close_centres_share_index closeNodes
      ⟨"n1".toList, Number.fin 50, Number.fin 50, "a.png".toList, 1, 1⟩
      ⟨"n2".toList, closeCentre, closeCentre, "b.png".toList, 1, 1⟩
      (by decide!) (by decide!) (by decide!)).1 (by decide!)⟩


/-! ## Target paths and the plan -/

/-- C1: every qualifying node has its element of `imagePositions`, and the target path
computed for it is the directory of the canvas (empty at the root, else the parent path
and a slash), the settings value, `L`, the line in decimal, `C`, the column in decimal,
a dot, and the extension: what follows the last dot of the last slash-separated segment
of the current path. -/
theorem C1_target_path (nodes : List Node) (pfx parentPath : Str) (p : ImagePosition)
    (hp : p ∈ imagePositions (positions (nodes.filter isImageNode))) :
    (imagePositions (positions (nodes.filter isImageNode))).map (fun q => (q.id, some q.file))
        = (nodes.filter isImageNode).map (fun n => (n.id, n.file)) ∧
    ∃ dirPart stem ext : Str,
      p.file = dirPart ++ (stem ++ '.' :: ext) ∧
      (dirPart = [] ∨ dirPart.getLast? = some '/') ∧
      '/' ∉ stem ∧ '/' ∉ ext ∧ '.' ∉ ext ∧
      newPathOf pfx (canvasDir parentPath) p
        = some ((if parentPath = [] then [] else parentPath ++ "/".toList) ++ pfx
            ++ "L".toList ++ decimal p.line ++ "C".toList ++ decimal p.column
            ++ ".".toList ++ ext) := by
  constructor
  · have h1 := congrArg (List.map (fun t : Str × Option Str × Number × Number => (t.1, t.2.1)))
      (imagePositions_map (positions (nodes.filter isImageNode)))
    have h2 := congrArg (List.map (fun t : Str × Option Str × Number × Number => (t.1, t.2.1)))
      (positions_filter nodes)
    simp only [List.map_map] at h1 h2
    exact h1.trans h2
  · obtain ⟨dirPart, stem, ext, h1, h2, h3, h4, h5, h6⟩ :=
      newPathOf_of_matches pfx (canvasDir parentPath) p
        (matches_of_mem_imagePositions nodes p hp)
    refine ⟨dirPart, stem, ext, h1, h2, h3, h4, h5, ?_⟩
    rw [h6]
    simp [canvasDir, List.append_assoc]

/-- C1 on an image `shots/My.Pic.JPEG` of a canvas in the folder `boards`. -/
theorem C1_target_path_witness :
    (⟨"n1".toList, Number.fin 50, Number.fin 50, "shots/My.Pic.JPEG".toList, 1, 1⟩ : ImagePosition)
        ∈ imagePositions (positions (folderNodes.filter isImageNode)) ∧
      newPathOf "P_".toList (canvasDir "boards".toList)
          ⟨"n1".toList, Number.fin 50, Number.fin 50, "shots/My.Pic.JPEG".toList, 1, 1⟩
        = some "boards/P_L1C1.JPEG".toList ∧
      ∃ dirPart stem ext : Str,
        "shots/My.Pic.JPEG".toList = dirPart ++ (stem ++ '.' :: ext) ∧
        (dirPart = [] ∨ dirPart.getLast? = some '/') ∧
        '/' ∉ stem ∧ '/' ∉ ext ∧ '.' ∉ ext ∧
        newPathOf "P_".toList (canvasDir "boards".toList)
            ⟨"n1".toList, Number.fin 50, Number.fin 50, "shots/My.Pic.JPEG".toList, 1, 1⟩
          = some ((if "boards".toList = [] then [] else "boards".toList ++ "/".toList)
              ++ "P_".toList ++ "L".toList ++ decimal 1 ++ "C".toList ++ decimal 1
              ++ ".".toList ++ ext) :=
  ⟨by decide!, by decide!,
    (C1_target_path folderNodes "P_".toList "boards".toList
      ⟨"n1".toList, Number.fin 50, Number.fin 50, "shots/My.Pic.JPEG".toList, 1, 1⟩ (by decide!)).2⟩

theorem renameStep_attempts {σ : Type} (V : Vault σ) (pfx dir : Str) (b : Bool)
    (st : LoopState σ) (p : ImagePosition) (np : Str) (h : newPathOf pfx dir p = some np) :
    (renameStep V pfx dir b st p).attempts.map (fun a => (a.id, a.oldPath, some a.newPath))
      = st.attempts.map (fun a => (a.id, a.oldPath, some a.newPath))
        ++ (if p.file = np then [] else [(p.id, p.file, some np)]) := by
  unfold renameStep
  rw [h]
  by_cases he : p.file = np
  · simp [he]
  · simp only [he, if_false]
    cases V.getAbstractFileByPath st.files p.file with
    | false => simp
    | true =>
      simp only [Bool.not_true, Bool.false_eq_true, if_false]
      cases V.rename st.files p.file np with
      | none => simp
      | some files' =>
        cases assignFile p.file np st.slots <;> simp

/-- The renames the loop attempts: the positions whose target differs from their
current path, in order, whatever the vault answers. -/
theorem foldl_attempts {σ : Type} (V : Vault σ) (pfx dir : Str) (b : Bool) :
    ∀ (ips : List ImagePosition), (∀ p ∈ ips, ∃ np, newPathOf pfx dir p = some np) →
      ∀ st : LoopState σ,
        (ips.foldl (renameStep V pfx dir b) st).attempts.map
            (fun a => (a.id, a.oldPath, some a.newPath))
          = st.attempts.map (fun a => (a.id, a.oldPath, some a.newPath))
            ++ (ips.filter (fun p => decide (newPathOf pfx dir p ≠ some p.file))).map
                (fun p => (p.id, p.file, newPathOf pfx dir p)) := by
  intro ips
  induction ips with
  | nil => intro _ st; simp
  | cons p t ih =>
    intro hall st
    obtain ⟨np, hnp⟩ := hall p (List.mem_cons_self _ _)
    rw [List.foldl_cons, ih (fun q hq => hall q (List.mem_cons_of_mem _ hq)),
      renameStep_attempts V pfx dir b st p np hnp]
    by_cases he : p.file = np
    · have hd : decide (newPathOf pfx dir p ≠ some p.file) = false := by
        simp [hnp, he]
      rw [List.filter_cons]
      simp only [hd]
      simp [he]
    · have hd : decide (newPathOf pfx dir p ≠ some p.file) = true := by
        simp only [hnp, ne_eq, Option.some.injEq, decide_eq_true_eq]
        exact fun e => he e.symm
      rw [List.filter_cons]
      simp only [hd]
      simp [he, hnp]


theorem positions_length (nodes : List Node) :
    (positions (nodes.filter isImageNode)).length = (nodes.filter isImageNode).length := by
  have h := congrArg List.length (positions_filter nodes)
  simpa using h

theorem newPathOf_some_of_mem (nodes : List Node) (pfx dir : Str) (p : ImagePosition)
    (hp : p ∈ imagePositions (positions (nodes.filter isImageNode))) :
    ∃ np, newPathOf pfx dir p = some np := by
  obtain ⟨_, _, _, _, _, _, _, _, h⟩ :=
    newPathOf_of_matches pfx dir p (matches_of_mem_imagePositions nodes p hp)
  exact ⟨_, h⟩

/-- A pass over a document without qualifying nodes. -/
theorem pass_of_no_images {σ : Type} (V : Vault σ) (settings : Settings) (b : Bool)
    (w : World σ) (activeFile : TFile) (d : CanvasData)
    (hactive : w.activeFile = some activeFile)
    (hext : activeFile.extension = "canvas".toList)
    (hpath : activeFile.path = settings.targetCanvas)
    (hdoc : w.docs activeFile.path = some (Stored.canvas d))
    (hnone : d.nodes.filter isImageNode = []) :
    renameImagesInActiveCanvas V settings b w = Result.idle w (rerunIfPaste b) := by
  unfold renameImagesInActiveCanvas
  simp only [hactive, hext, hpath, ne_eq, not_true_eq_false, or_self, if_false]
  unfold passBody readCanvas
  simp [hdoc, hnone]

/-- A pass over a document with qualifying nodes: the loop runs, and the document is
written when the loop renamed something. -/
theorem pass_of_images {σ : Type} (V : Vault σ) (settings : Settings) (b : Bool)
    (w : World σ) (activeFile : TFile) (d : CanvasData)
    (hactive : w.activeFile = some activeFile)
    (hext : activeFile.extension = "canvas".toList)
    (hpath : activeFile.path = settings.targetCanvas)
    (hdoc : w.docs activeFile.path = some (Stored.canvas d))
    (hsome : d.nodes.filter isImageNode ≠ []) (st : LoopState σ)
    (hst : st = renameLoop V settings.pfx (canvasDir activeFile.parentPath) b w.files d.nodes
      (imagePositions (positions (d.nodes.filter isImageNode)))) :
    renameImagesInActiveCanvas V settings b w =
      { world :=
          if st.renamed then
            World.modify { w with files := st.files } activeFile.path
              (Stored.canvas { d with nodes := st.slots.map (fun s => s.node) })
          else { w with files := st.files }
        writes :=
          if st.renamed then
            [(activeFile.path, Stored.canvas { d with nodes := st.slots.map (fun s => s.node) })]
          else []
        scheduled := st.scheduled
        attempts := st.attempts
        nodes := (st.slots.filter (fun s => s.inNodes)).map (fun s => s.node) } := by
  have hlen : (d.nodes.filter isImageNode).length ≠ 0 := by
    intro h
    exact hsome (List.length_eq_zero.1 h)
  have hlen2 : (positions (d.nodes.filter isImageNode)).length ≠ 0 := by
    rw [positions_length]
    exact hlen
  unfold renameImagesInActiveCanvas
  simp only [hactive, hext, hpath, ne_eq, not_true_eq_false, or_self, if_false]
  unfold passBody readCanvas
  simp only [hdoc, hlen, hlen2, if_false, hst]
  simp only [hpath, hactive]

/-- C3: the renames a pass attempts are the qualifying nodes whose computed target
differs from their current path, in node-list order: a node the filter rejects has no
position, a position whose path is its target is left out, and every other one is
attempted, whatever the vault answers. -/
theorem C3_plan_is_the_nodes_off_target {σ : Type} (V : Vault σ) (settings : Settings)
    (isPasteTriggered : Bool) (w : World σ) (activeFile : TFile) (d : CanvasData)
    (hactive : w.activeFile = some activeFile)
    (hext : activeFile.extension = "canvas".toList)
    (hpath : activeFile.path = settings.targetCanvas)
    (hdoc : w.docs activeFile.path = some (Stored.canvas d)) :
    (renameImagesInActiveCanvas V settings isPasteTriggered w).attempts.map
        (fun a => (a.id, a.oldPath, some a.newPath))
      = ((imagePositions (positions (d.nodes.filter isImageNode))).filter
          (fun p => decide
            (newPathOf settings.pfx (canvasDir activeFile.parentPath) p ≠ some p.file))).map
          (fun p => (p.id, p.file, newPathOf settings.pfx (canvasDir activeFile.parentPath) p)) ∧
    (imagePositions (positions (d.nodes.filter isImageNode))).map (fun q => (q.id, some q.file))
      = (d.nodes.filter isImageNode).map (fun n => (n.id, n.file)) ∧
    ∀ p ∈ imagePositions (positions (d.nodes.filter isImageNode)),
      ∃ np, newPathOf settings.pfx (canvasDir activeFile.parentPath) p = some np := by
  refine ⟨?_, ?_, fun p hp => newPathOf_some_of_mem d.nodes _ _ p hp⟩
  · by_cases hn : d.nodes.filter isImageNode = []
    · rw [pass_of_no_images V settings isPasteTriggered w activeFile d hactive hext hpath hdoc hn,
        hn]
      rfl
    · rw [pass_of_images V settings isPasteTriggered w activeFile d hactive hext hpath hdoc hn
        _ rfl]
      simp only []
      unfold renameLoop
      rw [foldl_attempts V _ _ _ _ (fun p hp => newPathOf_some_of_mem d.nodes _ _ p hp)]
      simp
  · have h1 := congrArg (List.map (fun t : Str × Option Str × Number × Number => (t.1, t.2.1)))
      (imagePositions_map (positions (d.nodes.filter isImageNode)))
    have h2 := congrArg (List.map (fun t : Str × Option Str × Number × Number => (t.1, t.2.1)))
      (positions_filter d.nodes)
    simp only [List.map_map] at h1 h2
    exact h1.trans h2

/-- C3 on a canvas with an image at its target, an image off its target, a note, a PDF
and a file node without `file`: only the second image is attempted. -/
theorem C3_plan_is_the_nodes_off_target_witness :
    (renameImagesInActiveCanvas pathVault boardSettings false
        (boardWorld ["P_L1C1.png", "shot.PNG", "paper.pdf"] (Stored.canvas mixedCanvas))).attempts
      = [⟨"n2".toList, "shot.PNG".toList, "P_L1C2.PNG".toList, Outcome.success⟩] ∧
    (renameImagesInActiveCanvas pathVault boardSettings false
        (boardWorld ["P_L1C1.png", "shot.PNG", "paper.pdf"]
          (Stored.canvas mixedCanvas))).attempts.map
        (fun a => (a.id, a.oldPath, some a.newPath))
      = ((imagePositions (positions (mixedCanvas.nodes.filter isImageNode))).filter
          (fun p => decide
            (newPathOf boardSettings.pfx (canvasDir boardFile.parentPath) p ≠ some p.file))).map
          (fun p => (p.id, p.file, newPathOf boardSettings.pfx (canvasDir boardFile.parentPath) p)) :=
  ⟨by decide!,
    (C3_plan_is_the_nodes_off_target pathVault boardSettings false
      (boardWorld ["P_L1C1.png", "shot.PNG", "paper.pdf"] (Stored.canvas mixedCanvas))
      boardFile mixedCanvas rfl rfl rfl (by decide!)).1⟩


/-! ## Scheduling -/

theorem renameStep_scheduled {σ : Type} (V : Vault σ) (pfx dir : Str) (b : Bool)
    (st : LoopState σ) (p : ImagePosition)
    (h : st.scheduled =
      if b then
        (st.attempts.filter (fun a => decide (a.outcome = Outcome.sourceMissing))).map
          (fun a => FollowUp.retry a.oldPath a.newPath)
      else []) :
    (renameStep V pfx dir b st p).scheduled =
      if b then
        ((renameStep V pfx dir b st p).attempts.filter
            (fun a => decide (a.outcome = Outcome.sourceMissing))).map
          (fun a => FollowUp.retry a.oldPath a.newPath)
      else [] := by
  unfold renameStep
  cases hnp : newPathOf pfx dir p with
  | none => exact h
  | some np =>
    by_cases he : p.file = np
    · simp only [he, if_true]
      exact h
    · simp only [he, if_false]
      cases V.getAbstractFileByPath st.files p.file with
      | false =>
        cases b <;> simp [h, List.filter_append]
      | true =>
        simp only [Bool.not_true, Bool.false_eq_true, if_false]
        cases V.rename st.files p.file np with
        | none => cases b <;> simp [h, List.filter_append]
        | some files' =>
          cases assignFile p.file np st.slots <;> cases b <;> simp [h, List.filter_append]

theorem foldl_scheduled {σ : Type} (V : Vault σ) (pfx dir : Str) (b : Bool) :
    ∀ (ips : List ImagePosition) (st : LoopState σ),
      (st.scheduled =
        if b then
          (st.attempts.filter (fun a => decide (a.outcome = Outcome.sourceMissing))).map
            (fun a => FollowUp.retry a.oldPath a.newPath)
        else []) →
      (ips.foldl (renameStep V pfx dir b) st).scheduled =
        if b then
          ((ips.foldl (renameStep V pfx dir b) st).attempts.filter
              (fun a => decide (a.outcome = Outcome.sourceMissing))).map
            (fun a => FollowUp.retry a.oldPath a.newPath)
        else [] := by
  intro ips
  induction ips with
  | nil => intro st h; exact h
  | cons p t ih =>
    intro st h
    rw [List.foldl_cons]
    exact ih _ (renameStep_scheduled V pfx dir b st p h)

/-- The retries the loop hands to `setTimeout`: one for each attempt that found its
source missing when the pass came from a paste, none otherwise. -/
theorem renameLoop_scheduled {σ : Type} (V : Vault σ) (pfx dir : Str) (b : Bool) (files : σ)
    (allNodes : List Node) (ips : List ImagePosition) :
    (renameLoop V pfx dir b files allNodes ips).scheduled =
      if b then
        ((renameLoop V pfx dir b files allNodes ips).attempts.filter
            (fun a => decide (a.outcome = Outcome.sourceMissing))).map
          (fun a => FollowUp.retry a.oldPath a.newPath)
      else [] := by
  unfold renameLoop
  apply foldl_scheduled
  cases b <;> rfl

/-- The three ways a pass can go. -/
theorem pass_cases {σ : Type} (V : Vault σ) (settings : Settings) (b : Bool) (w : World σ) :
    renameImagesInActiveCanvas V settings b w = Result.idle w [] ∨
    (∃ activeFile d,
      w.activeFile = some activeFile ∧ activeFile.extension = "canvas".toList ∧
      activeFile.path = settings.targetCanvas ∧
      w.docs activeFile.path = some (Stored.canvas d) ∧
      d.nodes.filter isImageNode = [] ∧
      renameImagesInActiveCanvas V settings b w = Result.idle w (rerunIfPaste b)) ∨
    (∃ activeFile d,
      w.activeFile = some activeFile ∧ activeFile.extension = "canvas".toList ∧
      activeFile.path = settings.targetCanvas ∧
      w.docs activeFile.path = some (Stored.canvas d) ∧
      d.nodes.filter isImageNode ≠ []) := by
  cases hA : w.activeFile with
  | none =>
    left
    unfold renameImagesInActiveCanvas
    simp [hA]
  | some af =>
    by_cases hg : af.extension ≠ "canvas".toList ∨ af.path ≠ settings.targetCanvas
    · left
      unfold renameImagesInActiveCanvas
      simp only [hA, hg, if_true]
    · have hext : af.extension = "canvas".toList := by
        by_contra h
        exact hg (Or.inl h)
      have hpath : af.path = settings.targetCanvas := by
        by_contra h
        exact hg (Or.inr h)
      cases hD : w.docs af.path with
      | none =>
        left
        unfold renameImagesInActiveCanvas
        simp only [hA, hg, if_false]
        unfold passBody readCanvas
        simp only [hD]
      | some c =>
        cases c with
        | canvas d =>
          by_cases hn : d.nodes.filter isImageNode = []
          · right; left
            exact ⟨af, d, rfl, hext, hpath, hD, hn,
              pass_of_no_images V settings b w af d hA hext hpath hD hn⟩
          · right; right
            exact ⟨af, d, rfl, hext, hpath, hD, hn⟩
        | nodeArray ns =>
          left
          unfold renameImagesInActiveCanvas
          simp only [hA, hg, if_false]
          unfold passBody readCanvas
          simp only [hD]
        | text s =>
          left
          unfold renameImagesInActiveCanvas
          simp only [hA, hg, if_false]
          unfold passBody readCanvas
          simp only [hD]

theorem retryRename_scheduled {σ : Type} (V : Vault σ) (oldPath newPath : Str)
    (nodes : List Node) (w : World σ) : (retryRename V oldPath newPath nodes w).scheduled = [] := by
  unfold retryRename
  cases V.getAbstractFileByPath w.files oldPath with
  | false => rfl
  | true =>
    simp only [Bool.not_true, Bool.false_eq_true, if_false]
    cases V.rename w.files oldPath newPath with
    | none => rfl
    | some files' =>
      simp only []
      cases nodes.find? (fun n => decide (n.file = some oldPath)) with
      | none => rfl
      | some found =>
        simp only []
        cases w.activeFile <;> rfl

/-- The callbacks of a pass, as a list of retries or a single re-run. -/
theorem pass_scheduled {σ : Type} (V : Vault σ) (settings : Settings) (b : Bool) (w : World σ) :
    (renameImagesInActiveCanvas V settings b w).scheduled.filter
        (fun t => decide (t ≠ FollowUp.rerun))
      = if b then
          ((renameImagesInActiveCanvas V settings b w).attempts.filter
              (fun a => decide (a.outcome = Outcome.sourceMissing))).map
            (fun a => FollowUp.retry a.oldPath a.newPath)
        else [] := by
  rcases pass_cases V settings b w with h | ⟨af, d, -, -, -, -, -, h⟩ | ⟨af, d, h1, h2, h3, h4, h5⟩
  · rw [h]
    cases b <;> rfl
  · rw [h]
    cases b <;> rfl
  · rw [pass_of_images V settings b w af d h1 h2 h3 h4 h5 _ rfl]
    simp only []
    rw [renameLoop_scheduled]
    cases b
    · rfl
    · simp only [if_true, List.filter_map]
      congr 1
      apply List.filter_eq_self.2
      intro a _
      simp

theorem timer_pass_scheduled {σ : Type} (V : Vault σ) (settings : Settings) (w : World σ) :
    (renameImagesInActiveCanvas V settings false w).scheduled = [] := by
  rcases pass_cases V settings false w with h | ⟨af, d, -, -, -, -, -, h⟩ |
    ⟨af, d, h1, h2, h3, h4, h5⟩
  · rw [h]; rfl
  · rw [h]; rfl
  · rw [pass_of_images V settings false w af d h1 h2 h3 h4 h5 _ rfl]
    simp only []
    rw [renameLoop_scheduled]
    rfl

/-- C8, as stated, fails for a pass the timer starts: the image `shot.png` is off its
target and missing from the vault, the pass attempts it, finds the source missing and
schedules nothing. -/
theorem C8_timer_pass_counterexample :
    (renameImagesInActiveCanvas pathVault boardSettings false
        (boardWorld [] (Stored.canvas pastedCanvas))).attempts
      = [⟨"n1".toList, "shot.png".toList, "P_L1C1.png".toList, Outcome.sourceMissing⟩] ∧
    (renameImagesInActiveCanvas pathVault boardSettings false
        (boardWorld [] (Stored.canvas pastedCanvas))).scheduled = [] := by
  decide!

/-- C8, amended: a pass started by a paste schedules one retry, with the same old and new
path, for each attempt that found its source missing, and no other retry; a pass the
timer starts schedules no retry; and a retry, however it ends, schedules nothing. -/
theorem C8_one_retry_after_paste {σ : Type} (V : Vault σ) (settings : Settings)
    (isPasteTriggered : Bool) (w : World σ) :
    (renameImagesInActiveCanvas V settings isPasteTriggered w).scheduled.filter
        (fun t => decide (t ≠ FollowUp.rerun))
      = (if isPasteTriggered then
          ((renameImagesInActiveCanvas V settings isPasteTriggered w).attempts.filter
              (fun a => decide (a.outcome = Outcome.sourceMissing))).map
            (fun a => FollowUp.retry a.oldPath a.newPath)
        else []) ∧
    ∀ (oldPath newPath : Str) (nodes : List Node) (w' : World σ),
      (retryRename V oldPath newPath nodes w').scheduled = [] :=
  ⟨pass_scheduled V settings isPasteTriggered w, fun o n ns w' => retryRename_scheduled V o n ns w'⟩

/-- C8 on the pasted image that is not in the vault yet: the pass started by the paste
schedules the one retry. -/
theorem C8_one_retry_after_paste_witness :
    (renameImagesInActiveCanvas pathVault boardSettings true
        (boardWorld [] (Stored.canvas pastedCanvas))).scheduled
      = [FollowUp.retry "shot.png".toList "P_L1C1.png".toList] ∧
    (renameImagesInActiveCanvas pathVault boardSettings true
          (boardWorld [] (Stored.canvas pastedCanvas))).scheduled.filter
        (fun t => decide (t ≠ FollowUp.rerun))
      = (if true then
          ((renameImagesInActiveCanvas pathVault boardSettings true
              (boardWorld [] (Stored.canvas pastedCanvas))).attempts.filter
              (fun a => decide (a.outcome = Outcome.sourceMissing))).map
            (fun a => FollowUp.retry a.oldPath a.newPath)
        else []) :=
  ⟨by decide!,
    (C8_one_retry_after_paste pathVault boardSettings true
      (boardWorld [] (Stored.canvas pastedCanvas))).1⟩


/-! ## What the main pass writes -/

theorem assignFile_frame (oldPath newPath : Str) :
    ∀ (ns : List Node) (slots slots' : List Slot),
      List.Forall₂ (fun n s => s.inNodes = isImageNode n ∧ sameButFile n s.node) ns slots →
      assignFile oldPath newPath slots = some slots' →
      List.Forall₂ (fun n s => s.inNodes = isImageNode n ∧ sameButFile n s.node) ns slots' := by
  intro ns slots
  induction slots generalizing ns with
  | nil => intro slots' _ h; simp [assignFile] at h
  | cons s rest ih =>
    intro slots' hf h
    cases ns with
    | nil => cases hf
    | cons n ns' =>
      rw [List.forall₂_cons] at hf
      obtain ⟨⟨hin, hsame, hrej⟩, hrest⟩ := hf
      unfold assignFile at h
      by_cases hc : (s.inNodes && decide (s.node.file = some oldPath)) = true
      · simp only [hc, if_true, Option.some.injEq] at h
        subst h
        refine List.Forall₂.cons ⟨hin, ?_, ?_⟩ hrest
        · simp only []
          rw [hsame]
        · intro hq
          rw [hq] at hin
          simp [hin] at hc
      · simp only [hc, Bool.false_eq_true, if_false, Option.map_eq_some'] at h
        obtain ⟨r, hr, rfl⟩ := h
        exact List.Forall₂.cons ⟨hin, hsame, hrej⟩ (ih ns' r hrest hr)

theorem renameStep_frame {σ : Type} (V : Vault σ) (pfx dir : Str) (b : Bool) (ns : List Node)
    (st : LoopState σ) (p : ImagePosition)
    (h : List.Forall₂ (fun n s => s.inNodes = isImageNode n ∧ sameButFile n s.node)
      ns st.slots) :
    List.Forall₂ (fun n s => s.inNodes = isImageNode n ∧ sameButFile n s.node)
      ns (renameStep V pfx dir b st p).slots := by
  unfold renameStep
  cases newPathOf pfx dir p with
  | none => exact h
  | some np =>
    by_cases he : p.file = np
    · simp only [he, if_true]
      exact h
    · simp only [he, if_false]
      cases V.getAbstractFileByPath st.files p.file with
      | false => exact h
      | true =>
        simp only [Bool.not_true, Bool.false_eq_true, if_false]
        cases V.rename st.files p.file np with
        | none => exact h
        | some files' =>
          cases ha : assignFile p.file np st.slots with
          | none => exact h
          | some slots' => exact assignFile_frame p.file np ns st.slots slots' h ha

theorem renameLoop_frame {σ : Type} (V : Vault σ) (pfx dir : Str) (b : Bool) (files : σ)
    (allNodes : List Node) (ips : List ImagePosition) :
    List.Forall₂ sameButFile allNodes
      ((renameLoop V pfx dir b files allNodes ips).slots.map (fun s => s.node)) := by
  have key : ∀ (l : List ImagePosition) (st : LoopState σ),
      List.Forall₂ (fun n s => s.inNodes = isImageNode n ∧ sameButFile n s.node)
        allNodes st.slots →
      List.Forall₂ (fun n s => s.inNodes = isImageNode n ∧ sameButFile n s.node)
        allNodes (l.foldl (renameStep V pfx dir b) st).slots := by
    intro l
    induction l with
    | nil => intro st h; exact h
    | cons p t ih =>
      intro st h
      rw [List.foldl_cons]
      exact ih _ (renameStep_frame V pfx dir b allNodes st p h)
  rw [List.forall₂_map_right_iff]
  refine List.Forall₂.imp (fun _ _ h => h.2) (key ips _ ?_)
  simp only []
  rw [List.forall₂_map_right_iff, List.forall₂_same]
  intro n _
  exact ⟨rfl, rfl, fun _ => rfl⟩

/-- Every document the main pass writes goes to the canvas it read and is that canvas
but for the `file` fields of qualifying nodes. -/
theorem main_pass_writes_frame {σ : Type} (V : Vault σ) (settings : Settings) (b : Bool)
    (w : World σ) (path : Str) (c : Stored)
    (hw : (path, c) ∈ (renameImagesInActiveCanvas V settings b w).writes) :
    ∃ d d', w.docs path = some (Stored.canvas d) ∧ c = Stored.canvas d' ∧ sameButFiles d d' := by
  rcases pass_cases V settings b w with h | ⟨af, d, -, -, -, -, -, h⟩ | ⟨af, d, h1, h2, h3, h4, h5⟩
  · rw [h] at hw
    simp [Result.idle] at hw
  · rw [h] at hw
    simp [Result.idle] at hw
  · rw [pass_of_images V settings b w af d h1 h2 h3 h4 h5 _ rfl] at hw
    simp only [] at hw
    split_ifs at hw with hr
    · simp only [List.mem_singleton, Prod.mk.injEq] at hw
      obtain ⟨rfl, rfl⟩ := hw
      exact ⟨d, _, h4, rfl, rfl, rfl, renameLoop_frame V _ _ b w.files d.nodes _⟩
    · simp at hw


/-- Whatever `retryRename` writes is a bare array of nodes, never a canvas object. -/
theorem retry_writes_array {σ : Type} (V : Vault σ) (oldPath newPath : Str) (nodes : List Node)
    (w : World σ) (path : Str) (c : Stored)
    (hw : (path, c) ∈ (retryRename V oldPath newPath nodes w).writes) :
    ∃ ns, c = Stored.nodeArray ns := by
  unfold retryRename at hw
  cases hr : V.getAbstractFileByPath w.files oldPath with
  | false => simp [hr, Result.idle] at hw
  | true =>
    simp only [hr, Bool.not_true, Bool.false_eq_true, if_false] at hw
    cases hn : V.rename w.files oldPath newPath with
    | none => simp [hn, Result.idle] at hw
    | some files' =>
      simp only [hn] at hw
      cases hf : nodes.find? (fun n => decide (n.file = some oldPath)) with
      | none => simp [hf, Result.idle] at hw
      | some found =>
        simp only [hf] at hw
        cases ha : w.activeFile with
        | none => simp [ha, Result.idle] at hw
        | some af =>
          simp only [ha, List.mem_singleton, Prod.mk.injEq] at hw
          exact ⟨_, hw.2⟩

/-- The target of an image that carries its target path is that path again: the
extension survives the rename. -/
theorem newPathOf_fixed (pfx dir : Str) (p : ImagePosition) (h : matchesImage p.file = true) :
    ∃ np, newPathOf pfx dir p = some np ∧
      newPathOf pfx dir { p with file := np } = some np := by
  obtain ⟨_, _, ext, _, _, _, hslash, hdot, hnp⟩ := newPathOf_of_matches pfx dir p h
  refine ⟨_, hnp, ?_⟩
  have e : dir ++ (pfx ++ ("L".toList ++ (decimal p.line ++ ("C".toList ++
      (decimal p.column ++ (".".toList ++ ext))))))
      = (dir ++ (pfx ++ ("L".toList ++ (decimal p.line ++ ("C".toList ++
          decimal p.column))))) ++ '.' :: ext := by
    simp [List.append_assoc]
  obtain ⟨dirPart, stem, -, -, -, hpop⟩ :=
    fileName_of (dir ++ (pfx ++ ("L".toList ++ (decimal p.line ++ ("C".toList ++
      decimal p.column))))) ext hslash
  unfold newPathOf
  simp only []
  rw [e, hpop]
  simp [extension_of stem ext hdot]

/-! ## Unreadable documents and follow-ups -/

/-- C9: when the text of the active document does not parse to an object with a `nodes`
array, a pass returns normally with the world as it found it: no rename is attempted,
nothing is written, the stored text is the same, and nothing is scheduled. -/
theorem C9_unparseable_document_is_left_alone {σ : Type} (V : Vault σ) (settings : Settings)
    (isPasteTriggered : Bool) (w : World σ) (activeFile : TFile) (c : Stored)
    (hactive : w.activeFile = some activeFile)
    (hdoc : w.docs activeFile.path = some c)
    (hbad : ∀ d, c ≠ Stored.canvas d) :
    (renameImagesInActiveCanvas V settings isPasteTriggered w).world = w ∧
    (renameImagesInActiveCanvas V settings isPasteTriggered w).writes = [] ∧
    (renameImagesInActiveCanvas V settings isPasteTriggered w).attempts = [] ∧
    (renameImagesInActiveCanvas V settings isPasteTriggered w).scheduled = [] ∧
    (renameImagesInActiveCanvas V settings isPasteTriggered w).world.docs activeFile.path
      = some c := by
  have h : renameImagesInActiveCanvas V settings isPasteTriggered w = Result.idle w [] := by
    rcases pass_cases V settings isPasteTriggered w with h | ⟨af, d, h1, -, -, h4, -, -⟩ |
      ⟨af, d, h1, -, -, h4, -⟩
    · exact h
    · rw [hactive] at h1
      cases h1
      rw [hdoc] at h4
      cases h4
      exact absurd rfl (hbad d)
    · rw [hactive] at h1
      cases h1
      rw [hdoc] at h4
      cases h4
      exact absurd rfl (hbad d)
  rw [h]
  exact ⟨rfl, rfl, rfl, rfl, hdoc⟩

/-- C9 on a canvas whose text is cut off in the middle, with an image in the vault that
a pass over a readable canvas would rename. -/
theorem C9_unparseable_document_is_left_alone_witness :
    (renameImagesInActiveCanvas pathVault boardSettings true
        (boardWorld ["shot.png"] (Stored.text "\x7b\"nodes\":[".toList))).world
      = boardWorld ["shot.png"] (Stored.text "\x7b\"nodes\":[".toList) ∧
    (renameImagesInActiveCanvas pathVault boardSettings true
        (boardWorld ["shot.png"] (Stored.text "\x7b\"nodes\":[".toList))).writes = [] ∧
    (renameImagesInActiveCanvas pathVault boardSettings true
        (boardWorld ["shot.png"] (Stored.text "\x7b\"nodes\":[".toList))).attempts = [] ∧
    (renameImagesInActiveCanvas pathVault boardSettings true
        (boardWorld ["shot.png"] (Stored.text "\x7b\"nodes\":[".toList))).scheduled = [] ∧
    (renameImagesInActiveCanvas pathVault boardSettings true
        (boardWorld ["shot.png"] (Stored.text "\x7b\"nodes\":[".toList))).world.docs
          boardFile.path
      = some (Stored.text "\x7b\"nodes\":[".toList) :=
  C9_unparseable_document_is_left_alone pathVault boardSettings true
    (boardWorld ["shot.png"] (Stored.text "\x7b\"nodes\":[".toList)) boardFile
    (Stored.text "\x7b\"nodes\":[".toList) rfl (by decide) (by intro d h; cases h)

/-- C10: a pass started by a paste that finds no qualifying node schedules exactly one
re-run of the pass, a pass the timer starts schedules nothing, and whatever a pass has
scheduled schedules nothing itself when it runs, in whatever world and on whatever
state of the array: a chain of follow-ups has length at most one. -/
theorem C10_follow_ups_stop_after_one {σ : Type} (V : Vault σ) (settings : Settings)
    (w : World σ) :
    (∀ (activeFile : TFile) (d : CanvasData),
      w.activeFile = some activeFile → activeFile.extension = "canvas".toList →
      activeFile.path = settings.targetCanvas →
      w.docs activeFile.path = some (Stored.canvas d) →
      d.nodes.filter isImageNode = [] →
      (renameImagesInActiveCanvas V settings true w).scheduled = [FollowUp.rerun]) ∧
    (renameImagesInActiveCanvas V settings false w).scheduled = [] ∧
    ∀ (isPasteTriggered : Bool),
      ∀ t ∈ (renameImagesInActiveCanvas V settings isPasteTriggered w).scheduled,
        ∀ (nodes : List Node) (w' : World σ),
          (runFollowUp V settings nodes w' t).scheduled = [] := by
  refine ⟨?_, timer_pass_scheduled V settings w, ?_⟩
  · intro af d h1 h2 h3 h4 h5
    rw [pass_of_no_images V settings true w af d h1 h2 h3 h4 h5]
    rfl
  · intro b t _ nodes w'
    cases t with
    | rerun => exact timer_pass_scheduled V settings w'
    | retry o n => exact retryRename_scheduled V o n nodes w'

/-- C10 on a canvas that holds a note only: the pass after a paste schedules the one
re-run, and the re-run, over the same canvas, schedules nothing. -/
theorem C10_follow_ups_stop_after_one_witness :
    (renameImagesInActiveCanvas pathVault boardSettings true
        (boardWorld [] (Stored.canvas noteCanvas))).scheduled = [FollowUp.rerun] ∧
    (runFollowUp pathVault boardSettings []
        (renameImagesInActiveCanvas pathVault boardSettings true
          (boardWorld [] (Stored.canvas noteCanvas))).world FollowUp.rerun).scheduled = [] :=
  ⟨(C10_follow_ups_stop_after_one pathVault boardSettings
      (boardWorld [] (Stored.canvas noteCanvas))).1 boardFile noteCanvas rfl rfl rfl
      rfl (by decide!),
    (C10_follow_ups_stop_after_one pathVault boardSettings
      (boardWorld [] (Stored.canvas noteCanvas))).2.2 true FollowUp.rerun (by decide!) [] _⟩

/-! ## Two defects, at concrete inputs -/

/-- C4 fails on a canvas that shows `P_L1C1.png` twice.  The first pass attempts one
rename, which succeeds, and line 143 gives the new path to the first node that holds the
old one, which is the node at column 1; the second pass, with no node moved, attempts
two renames and writes again. -/
theorem C4_second_pass_renames_again :
    (renameImagesInActiveCanvas pathVault boardSettings false
        (boardWorld ["P_L1C1.png"] (Stored.canvas twiceCanvas))).attempts
      = [⟨"n2".toList, "P_L1C1.png".toList, "P_L1C2.png".toList, Outcome.success⟩] ∧
    (renameImagesInActiveCanvas pathVault boardSettings false
        (boardWorld ["P_L1C1.png"] (Stored.canvas twiceCanvas))).world.docs boardFile.path
      = some (Stored.canvas
          { twiceCanvas with
            nodes := [fileNode "n1" "P_L1C2.png" 0 0, fileNode "n2" "P_L1C1.png" 200 0] }) ∧
    (renameImagesInActiveCanvas pathVault boardSettings false
        (renameImagesInActiveCanvas pathVault boardSettings false
          (boardWorld ["P_L1C1.png"] (Stored.canvas twiceCanvas))).world).attempts
      = [⟨"n1".toList, "P_L1C2.png".toList, "P_L1C1.png".toList, Outcome.success⟩,
         ⟨"n2".toList, "P_L1C1.png".toList, "P_L1C2.png".toList, Outcome.success⟩] ∧
    (renameImagesInActiveCanvas pathVault boardSettings false
        (renameImagesInActiveCanvas pathVault boardSettings false
          (boardWorld ["P_L1C1.png"] (Stored.canvas twiceCanvas))).world).writes ≠ [] := by
  decide!

/-- C5 fails for a retry.  The pass after a paste finds `shot.png` missing and schedules
the retry; by the time it runs the file is there, the rename succeeds, and what
`retryRename` writes over the canvas is the bare array of the qualifying nodes: the note,
the edge and the top-level object are gone, and the next pass cannot read it. -/
theorem C5_retry_writes_a_bare_array :
    (renameImagesInActiveCanvas pathVault boardSettings true
        (boardWorld [] (Stored.canvas pastedCanvas))).scheduled
      = [FollowUp.retry "shot.png".toList "P_L1C1.png".toList] ∧
    (renameImagesInActiveCanvas pathVault boardSettings true
        (boardWorld [] (Stored.canvas pastedCanvas))).nodes = [fileNode "n1" "shot.png" 0 0] ∧
    (runFollowUp pathVault boardSettings [fileNode "n1" "shot.png" 0 0]
        (boardWorld ["shot.png"] (Stored.canvas pastedCanvas))
        (FollowUp.retry "shot.png".toList "P_L1C1.png".toList)).writes
      = [(boardFile.path, Stored.nodeArray [fileNode "n1" "P_L1C1.png" 0 0])] ∧
    (runFollowUp pathVault boardSettings [fileNode "n1" "shot.png" 0 0]
        (boardWorld ["shot.png"] (Stored.canvas pastedCanvas))
        (FollowUp.retry "shot.png".toList "P_L1C1.png".toList)).writes
      ≠ [(boardFile.path,
          Stored.canvas { pastedCanvas with nodes := [fileNode "n1" "P_L1C1.png" 0 0, textNode] })] ∧
    readCanvas
        (runFollowUp pathVault boardSettings [fileNode "n1" "shot.png" 0 0]
          (boardWorld ["shot.png"] (Stored.canvas pastedCanvas))
          (FollowUp.retry "shot.png".toList "P_L1C1.png".toList)).world boardFile.path
      = Except.error "nodes".toList :=
  ⟨by decide!, by decide!, by decide!, by decide!, rfl⟩


end AutoRename
